import Mathlib

/-!
Verification of the iTech Accrual Updater core logic.

This file gives a shallow embedding, in Lean 4, of the period-parsing,
rate-resolution, OT-classification and aggregation logic of the repository
(`accrual_updater.py`, `admin_fee_module.py`, `admin_fee_module_v18b.py`),
and proves the testable properties stated in the specification.

Python floats are modelled as rationals (the logic is decimal string
processing and exact arithmetic on the parsed values), Python strings as
`List Char`, spreadsheet cells as a tagged variant over empty / number /
text, and a sheet as a cell lookup with row and column counts.  Fallible
document loading is modelled with `Except`.
-/

set_option maxHeartbeats 1000000

/-- A Python cell value as seen by the aggregation code: `None`, a float, or
a string (`accrual_updater.py` / both admin-fee modules read exactly these
from the grid collaborator). -/
inductive PyVal where
| none : PyVal
| num : ℚ → PyVal
| str : List Char → PyVal
deriving DecidableEq

/-- Python truthiness for cell values (`if cell_val:` / `if raw is None`). -/
def PyVal.truthy : PyVal → Bool
| .none => false
| .num q => q ≠ 0
| .str s => s ≠ []

/-- The characters stripped by Python's default `str.strip()`. -/
def isPySpace (c : Char) : Bool :=
c = ' ' || c = '\t' || c = '\n' || c = '\r' || c = Char.ofNat 11 || c = Char.ofNat 12

/-- Python `str.strip()`. -/
def pyStrip (l : List Char) : List Char :=
((l.dropWhile isPySpace).reverse.dropWhile isPySpace).reverse

/-- Python `str.lower()` (ASCII range, which is all the code compares). -/
def pyLower (l : List Char) : List Char := l.map Char.toLower

/-- Python `str.upper()` (ASCII range). -/
def pyUpper (l : List Char) : List Char := l.map Char.toUpper

/-- Python's substring test `needle in haystack`. -/
def pyIn (needle : List Char) : List Char → Bool
| [] => needle.isPrefixOf []
| c :: rest => needle.isPrefixOf (c :: rest) || pyIn needle rest

/-- Numeric value of a digit character. -/
def digitVal (c : Char) : ℕ := c.toNat - 48

/-- Value of a digit string read in base 10. -/
def digitsVal (l : List Char) : ℕ := l.foldl (fun a c => 10 * a + digitVal c) 0

/-- Value of a digit string read as a decimal fraction (digits after the point). -/
def fracVal (l : List Char) : ℚ := (digitsVal l : ℚ) / (10 : ℚ) ^ l.length

/-- Remove every occurrence of a character (Python `str.replace(c, "")`). -/
def removeChar (c : Char) (l : List Char) : List Char := l.filter (fun x => x != c)

/-- Replace every occurrence of a character (Python `str.replace(a, b)` with
single-character arguments). -/
def replaceChar (a b : Char) (l : List Char) : List Char :=
l.map (fun x => if x = a then b else x)

/-- Match the regex fragment `\d+(?:\.\d+)?` at the head of the list and
return its rational value (the optional group is taken only when a digit
follows the point, as in the Python regex). -/
def matchUnsignedNumber (l : List Char) : Option ℚ :=
match l.span Char.isDigit with
| (ds, rest) =>
  if ds = [] then none
  else
    match rest with
    | '.' :: r2 =>
      match r2.takeWhile Char.isDigit with
      | [] => some (digitsVal ds : ℚ)
      | fs => some ((digitsVal ds : ℚ) + fracVal fs)
    | _ => some (digitsVal ds : ℚ)

/-- Match the regex `-?\d+(?:\.\d+)?` at the head of the list. -/
def matchSignedNumberAt (l : List Char) : Option ℚ :=
if l.head? = some '-' then (matchUnsignedNumber l.tail).map (fun q => -q)
else matchUnsignedNumber l

/-- `re.search(r"-?\d+(?:\.\d+)?", s)`: value of the leftmost signed decimal
substring, if any. -/
def searchNumber : List Char → Option ℚ
| [] => none
| c :: rest =>
  match matchSignedNumberAt (c :: rest) with
  | some q => some q
  | none => searchNumber rest

/-- The string pipeline of `safe_float` (identical in `accrual_updater.py`,
`admin_fee_module.py` and `admin_fee_module_v18b.py`): strip, drop commas and
dollar signs, turn `(` into `-` and drop `)`, then read the first signed
decimal substring, defaulting to `0`. -/
def pySafeFloatStr (s : List Char) : ℚ :=
let s1 := pyStrip s
let s2 := removeChar '$' (removeChar ',' s1)
let s3 := removeChar ')' (replaceChar '(' '-' s2)
if s3 = [] || s3 = ['-'] then 0
else
  match searchNumber s3 with
  | some q => q
  | none => 0

/-- `safe_float` on a cell value: `None` coerces to `0`, numbers pass
through, strings go through the tolerant extractor.  Never fails. -/
def safe_float : PyVal → ℚ
| .none => 0
| .num q => q
| .str s => pySafeFloatStr s

/-! ### OT suffix detection (`accrual_updater.py`, `detect_ot_suffix`) -/

/-- `re.search(r"-\s*OT\s*$", u)` as a check on the reversed string: drop
trailing whitespace, expect `TO`, drop whitespace, expect `-`. -/
def searchDashOT (u : List Char) : Bool :=
match u.reverse.dropWhile isPySpace with
| c1 :: c2 :: r2 =>
  c1 = 'T' && c2 = 'O' &&
    (match r2.dropWhile isPySpace with
     | c3 :: _ => c3 = '-'
     | [] => false)
| _ => false

/-- Python `u.endswith("-OT")`. -/
def endsWithDashOT (u : List Char) : Bool :=
match u.reverse with
| c1 :: c2 :: c3 :: _ => c1 = 'T' && c2 = 'O' && c3 = '-'
| _ => false

/-- `re.search(r"\s+OT\s*$", u)`: drop trailing whitespace, expect `TO`,
then at least one whitespace character. -/
def searchSpaceOT (u : List Char) : Bool :=
match u.reverse.dropWhile isPySpace with
| c1 :: c2 :: c3 :: _ => c1 = 'T' && c2 = 'O' && isPySpace c3
| _ => false

/-- `detect_ot_suffix` (`accrual_updater.py` lines 784-800): empty input is
regular; otherwise upper-case and strip, then test the three suffix shapes
in the order the code does. -/
def detect_ot_suffix (s : List Char) : Bool :=
if s = [] then false
else
  let u := pyStrip (pyUpper s)
  searchDashOT u || endsWithDashOT u || searchSpaceOT u

/-! ### Month filters (`accrual_updater.py`, `calculate_billed_with_ot` line 885
and `parse_paysheet` lines 252-291) -/

/-- The decimal digit character for `n % 10`-style values (total, clamping at
`9` like the exhaustive match it is). -/
def digitChar (n : ℕ) : Char :=
match n with
| 0 => '0' | 1 => '1' | 2 => '2' | 3 => '3' | 4 => '4'
| 5 => '5' | 6 => '6' | 7 => '7' | 8 => '8' | _ => '9'

/-- Python `str(m)` for a month number (the code only interpolates values
`1..12` into its regexes, where this is exact). -/
def monthStr (m : ℕ) : List Char :=
if m < 10 then [digitChar m] else [digitChar (m / 10), digitChar (m % 10)]

/-- Python `f"{m:02d}"` for a month number `1..12`. -/
def month02Str (m : ℕ) : List Char :=
if m < 10 then ['0', digitChar m] else monthStr m

/-- The v3.4.3 anchored month regex of `calculate_billed_with_ot` as a
Boolean: the string starts with
the month's digits, optionally preceded by one `0`, followed by a slash or
a dash (`accrual_updater.py` line 885). -/
def billed_month_filter (month : ℕ) (s : List Char) : Bool :=
(monthStr month ++ ['/']).isPrefixOf s || (monthStr month ++ ['-']).isPrefixOf s ||
  (('0' :: monthStr month) ++ ['/']).isPrefixOf s ||
  (('0' :: monthStr month) ++ ['-']).isPrefixOf s

/-- Python regex `\w` on the ASCII range. -/
def isWordChar (c : Char) : Bool := c.isAlphanum || c = '_'

/-- After the month digits: a slash or dash separator, or a word boundary
(end of string or a non-word character). -/
def boundaryOk (l : List Char) : Bool :=
match l with
| [] => true
| c :: _ => c = '/' || c = '-' || !(isWordChar c)

/-- One alternative of `parse_paysheet`'s anchored start regex: the given
digit prefix followed by an acceptable boundary. -/
def startAlt (p : List Char) (s : List Char) : Bool :=
p.isPrefixOf s && boundaryOk (s.drop p.length)

/-- The anchored start regex of `parse_paysheet` line 252: optional leading
whitespace, the zero-padded or plain month digits, then a separator or a
word boundary. -/
def start_month_re (month : ℕ) (s : List Char) : Bool :=
startAlt (month02Str month) (s.dropWhile isPySpace) ||
  startAlt (monthStr month) (s.dropWhile isPySpace)

/-- Strip ASCII letters, `re.sub(r"[A-Za-z]+", "", s)`. -/
def stripLetters (l : List Char) : List Char := l.filter (fun c => !c.isAlpha)

/-- First match of `(\d{1,2})`: at the first digit, greedily take a second
digit if present. -/
def firstNum12 : List Char → Option ℕ
| [] => Option.none
| c :: rest =>
  if c.isDigit then
    match rest with
    | d :: _ => if d.isDigit then some (10 * digitVal c + digitVal d) else some (digitVal c)
    | [] => some (digitVal c)
  else firstNum12 rest

/-- `first_numeric_token_from_text` (`parse_paysheet` lines 254-259). -/
def first_numeric_token_from_text (s : List Char) : Option ℕ :=
firstNum12 (stripLetters s)

/-- The month acceptance test of the B/C paysheet scan (`parse_paysheet`
lines 285-291): the first numeric token must equal the target month, and the
text must look like a period (contain `-`) or start with the month. -/
def paysheet_month_filter (month : ℕ) (txt : List Char) : Bool :=
match first_numeric_token_from_text txt with
| Option.none => false
| some n =>
  if n ≠ month then false
  else txt.contains '-' || start_month_re month txt

/-! ### Date tuples and rate timelines

Dates are `(month, day, year)` triples as in the Python code; Python's
tuple comparison on the reordered `(year, month, day)` is embedded
explicitly. -/

/-- Python `<=` on 2-tuples of numbers. -/
def pyTupleLE2 (a b : ℕ × ℕ) : Bool :=
decide (a.1 < b.1 ∨ (a.1 = b.1 ∧ a.2 ≤ b.2))

/-- Python `<=` on 3-tuples of numbers. -/
def pyTupleLE3 (a b : ℕ × ℕ × ℕ) : Bool :=
decide (a.1 < b.1 ∨ (a.1 = b.1 ∧ (a.2.1 < b.2.1 ∨ (a.2.1 = b.2.1 ∧ a.2.2 ≤ b.2.2))))

/-- `(year, month, day)` comparison of two `(month, day, year)` dates, as in
`get_rate_for_date`. -/
def dateLE (d1 d2 : ℕ × ℕ × ℕ) : Bool :=
pyTupleLE3 (d1.2.2, d1.1, d1.2.1) (d2.2.2, d2.1, d2.2.1)

/-- Loop of `get_rate_for_date` (`admin_fee_module_v18b.py` lines 82-92):
track the most recent entry effective on or before the target, break at the
first later entry. -/
def get_rate_for_date_aux : List ((ℕ × ℕ × ℕ) × ℚ) → (ℕ × ℕ × ℕ) → ℚ → ℚ
| [], _, acc => acc
| (dt, r) :: rest, target, acc =>
  if dateLE dt target then get_rate_for_date_aux rest target r else acc

/-- `get_rate_for_date`: applicable rate for a specific date, `0` if none. -/
def get_rate_for_date (fees : List ((ℕ × ℕ × ℕ) × ℚ)) (d : ℕ × ℕ × ℕ) : ℚ :=
get_rate_for_date_aux fees d 0

/-- `is_full_month_period` (`admin_fee_module_v18b.py` lines 94-102). -/
def is_full_month_period (s e : ℕ × ℕ × ℕ) : Bool :=
if s.1 ≠ e.1 then false
else if s.2.1 ≠ 1 then false
else if e.2.1 < 28 then false
else true

/-- `has_mid_month_eff` (`admin_fee_module_v18b.py` lines 104-109). -/
def has_mid_month_eff : List ((ℕ × ℕ × ℕ) × ℚ) → ℕ → Bool
| [], _ => false
| (dt, _) :: rest, month =>
  if dt.1 = month ∧ 1 < dt.2.1 then true else has_mid_month_eff rest month

/-- Loop of `get_full_month_eff_rate`: keep the rate of the last entry in
the given month with effective day after the 1st. -/
def get_full_month_eff_rate_aux : List ((ℕ × ℕ × ℕ) × ℚ) → ℕ → ℚ → ℚ
| [], _, acc => acc
| (dt, r) :: rest, month, acc =>
  if dt.1 = month ∧ 1 < dt.2.1 then get_full_month_eff_rate_aux rest month r
  else get_full_month_eff_rate_aux rest month acc

/-- `get_full_month_eff_rate` (`admin_fee_module_v18b.py` lines 111-117). -/
def get_full_month_eff_rate (fees : List ((ℕ × ℕ × ℕ) × ℚ)) (month : ℕ) : ℚ :=
get_full_month_eff_rate_aux fees month 0

/-- The per-row rate choice of `calculate_admin_fee_for_paysheet`
(`admin_fee_module_v18b.py` lines 219-231): full-month periods with a
mid-month effective entry take the full-month effective rate, every other
period resolves from its start date. -/
def v18b_rate_for_row (fees : List ((ℕ × ℕ × ℕ) × ℚ)) (month : ℕ)
    (startDate endDate : ℕ × ℕ × ℕ) : ℚ :=
if is_full_month_period startDate endDate && has_mid_month_eff fees month then
  get_full_month_eff_rate fees month
else get_rate_for_date fees startDate

/-- Loop of `get_applicable_admin_fee` (`admin_fee_module.py` lines 95-109):
sentinel entries (year `0`) update the static fallback, dated entries on or
before the `(year, month)` target update the applicable rate, and the first
later dated entry breaks the scan. -/
def get_applicable_admin_fee_aux :
    List ((ℕ × ℕ × ℕ) × ℚ) → ℕ → ℕ → ℚ → ℚ → ℚ
| [], _, _, appl, static => if 0 < appl then appl else static
| (dt, r) :: rest, tm, ty, appl, static =>
  if dt.2.2 = 0 then get_applicable_admin_fee_aux rest tm ty appl r
  else if pyTupleLE2 (dt.2.2, dt.1) (ty, tm) then
    get_applicable_admin_fee_aux rest tm ty r static
  else if 0 < appl then appl else static

/-- `get_applicable_admin_fee`: month-granular resolution with static
fallback. -/
def get_applicable_admin_fee (fees : List ((ℕ × ℕ × ℕ) × ℚ)) (tm ty : ℕ) : ℚ :=
get_applicable_admin_fee_aux fees tm ty 0 0

/-! ### Period and date text parsers

The regexes are embedded as deterministic parsers over `List Char` with the
same greedy-plus-backtracking behaviour: each `\d{1,2}` first tries two
digits and falls back to one digit if the rest of the pattern fails. -/

/-- Expect one literal character. -/
def expectChar (c : Char) (l : List Char) : Option (List Char) :=
match l with
| x :: r => if x = c then some r else Option.none
| [] => Option.none

/-- `(\d{1,2})` followed by the continuation `k`, greedy with backtracking. -/
def match12Then (k : List Char → Option α) (l : List Char) : Option (ℕ × α) :=
match l with
| [] => Option.none
| c1 :: rest1 =>
  if c1.isDigit then
    match rest1 with
    | c2 :: rest2 =>
      if c2.isDigit then
        match k rest2 with
        | some a => some (10 * digitVal c1 + digitVal c2, a)
        | Option.none => (k rest1).map (fun a => (digitVal c1, a))
      else (k rest1).map (fun a => (digitVal c1, a))
    | [] => (k []).map (fun a => (digitVal c1, a))
  else Option.none

/-- `(\d{1,2})` with nothing required after it: greedily take up to two
digits. -/
def take12Digits (l : List Char) : Option (ℕ × List Char) :=
match l with
| [] => Option.none
| c1 :: rest1 =>
  if c1.isDigit then
    match rest1 with
    | c2 :: rest2 => if c2.isDigit then some (10 * digitVal c1 + digitVal c2, rest2)
        else some (digitVal c1, rest1)
    | [] => some (digitVal c1, [])
  else Option.none

/-- `(\d{2,4})` greedy with nothing required after it. -/
def take24Digits (l : List Char) : Option (ℕ × List Char) :=
match l with
| a :: b :: rest =>
  if a.isDigit ∧ b.isDigit then
    let v2 := 10 * digitVal a + digitVal b
    match rest with
    | c :: rest2 =>
      if c.isDigit then
        let v3 := 10 * v2 + digitVal c
        match rest2 with
        | d :: rest3 =>
          if d.isDigit then some (10 * v3 + digitVal d, rest3) else some (v3, rest2)
        | [] => some (v3, [])
      else some (v2, rest)
    | [] => some (v2, [])
  else Option.none
| _ => Option.none

/-- `(\d{4})`: exactly four consecutive digits. -/
def take4Digits (l : List Char) : Option (ℕ × List Char) :=
match l with
| a :: b :: c :: d :: rest =>
  if a.isDigit ∧ b.isDigit ∧ c.isDigit ∧ d.isDigit then
    some (10 * (10 * (10 * digitVal a + digitVal b) + digitVal c) + digitVal d, rest)
  else Option.none
| _ => Option.none

/-- The spaced separator of the range regex: optional whitespace, a dash or
slash, optional whitespace. -/
def sepSpaces (l : List Char) : Option (List Char) :=
match l.dropWhile isPySpace with
| c :: r => if c = '-' ∨ c = '/' then some (r.dropWhile isPySpace) else Option.none
| [] => Option.none

/-- The plain separator of the range regex: a dash or slash, no spaces. -/
def sepDash (l : List Char) : Option (List Char) :=
match l with
| c :: r => if c = '-' ∨ c = '/' then some r else Option.none
| [] => Option.none

/-- `re.search`: try the matcher at each position, leftmost success wins. -/
def searchPos (m : List Char → Option α) : List Char → Option α
| [] => m []
| c :: rest =>
  match m (c :: rest) with
  | some a => some a
  | Option.none => searchPos m rest

/-- `(\d{1,2})/(\d{1,2})/(\d{2,4})` at the current position. -/
def matchSingleDateAt (l : List Char) : Option ((ℕ × ℕ × ℕ) × List Char) :=
match match12Then (fun r =>
    (expectChar '/' r).bind (match12Then (fun r2 =>
      (expectChar '/' r2).bind take24Digits))) l with
| some (m, (d, (y, rest))) => some ((m, d, y), rest)
| Option.none => Option.none

/-- `extract_single_date` (`admin_fee_module_v18b.py` lines 31-38):
anchored single-date parse with two-digit years promoted by `+2000`. -/
def extract_single_date (s : List Char) : Option (ℕ × ℕ × ℕ) :=
match matchSingleDateAt s with
| some ((m, d, y), _) => some (m, d, if y < 100 then y + 2000 else y)
| Option.none => Option.none

/-- `parse_admin_fee_eff_date` (identical in both admin-fee modules):
unanchored search for a single date, years promoted by `+2000`. -/
def parse_admin_fee_eff_date (s : List Char) : Option (ℕ × ℕ × ℕ) :=
match searchPos matchSingleDateAt s with
| some ((m, d, y), _) => some (m, d, if y < 100 then y + 2000 else y)
| Option.none => Option.none

/-- `extract_date_from_period` (`admin_fee_module.py` lines 29-36): anchored
`(\d{1,2})/(\d{1,2})`, then an independent search for a four-digit year
anywhere in the string, defaulting to `0`. -/
def extract_date_from_period (s : List Char) : Option (ℕ × ℕ × ℕ) :=
match match12Then (fun r => (expectChar '/' r).bind take12Digits) s with
| some (m, (d, _)) =>
  let y := match searchPos take4Digits s with
    | some (v, _) => v
    | Option.none => 0
  some (m, d, y)
| Option.none => Option.none

/-- The range regex of `extract_period_dates` at the start of the string:
month and day, a spaced separator, then month, day and a four-digit year
each separated by a dash or slash. -/
def matchPeriodAt (l : List Char) :
    Option ((ℕ × ℕ) × (ℕ × ℕ) × ℕ × List Char) :=
match match12Then (fun r =>
    (expectChar '/' r).bind (match12Then (fun r2 =>
      (sepSpaces r2).bind (match12Then (fun r3 =>
        (sepDash r3).bind (match12Then (fun r4 =>
          (sepDash r4).bind take4Digits))))))) l with
| some (m1, (d1, (m2, (d2, (y, rest))))) => some ((m1, d1), (m2, d2), y, rest)
| Option.none => Option.none

/-- `extract_period_dates` (`admin_fee_module_v18b.py` lines 24-29): a
range parse returns start and end `(month, day, year)` sharing the trailing
four-digit year. -/
def extract_period_dates (s : List Char) : Option ((ℕ × ℕ × ℕ) × (ℕ × ℕ × ℕ)) :=
match matchPeriodAt s with
| some ((m1, d1), (m2, d2), y, _) => some ((m1, d1, y), (m2, d2, y))
| Option.none => Option.none

/-- Spec-side reading of the OT rule: the trimmed upper-cased label ends in
the literal `-OT`. -/
def specEndsDashOT (u : List Char) : Prop := ∃ a, u = a ++ ['-', 'O', 'T']

/-- Spec-side reading: ends with a hyphen-separated `OT` token, optional
whitespace between the hyphen and the token. -/
def specHyphenSepOT (u : List Char) : Prop :=
∃ a w, (∀ c ∈ w, isPySpace c = true) ∧ u = a ++ '-' :: (w ++ ['O', 'T'])

/-- Spec-side reading: ends with a whitespace-separated `OT` token. -/
def specSpaceSepOT (u : List Char) : Prop :=
∃ a w, w ≠ [] ∧ (∀ c ∈ w, isPySpace c = true) ∧ u = a ++ w ++ ['O', 'T']

/-- The OT classification contract as the specification words it. -/
def spec_is_overtime (s : List Char) : Prop :=
specEndsDashOT (pyStrip (pyUpper s)) ∨ specHyphenSepOT (pyStrip (pyUpper s)) ∨
  specSpaceSepOT (pyStrip (pyUpper s))

/-! ### Sheets, books and cell rendering -/

/-- One sheet of the grid collaborator: row and column counts plus a typed
cell lookup (the `xlrd`/pandas surface used by the code). -/
structure Sheet where
  nrows : ℕ
  ncols : ℕ
  cell : ℕ → ℕ → PyVal

/-- A workbook: named sheets in order. -/
def Book := List (List Char × Sheet)

/-- Decimal expansion of a fraction `rem / d`, stopping when the remainder
vanishes or after `fuel` digits (CPython prints the shortest round-tripping
decimal of a float; on the terminating decimals the code produces this is
that string, and the aggregation logic never depends on the tail). -/
def fracDigits : ℕ → ℕ → ℕ → List Char
| _, _, 0 => []
| rem, d, fuel + 1 =>
  if rem = 0 then []
  else digitChar (rem * 10 / d) :: fracDigits (rem * 10 % d) d fuel

/-- `str(q)` for a nonnegative float value. -/
def qReprNonneg (q : ℚ) : List Char :=
let n : ℕ := q.num.toNat
let d : ℕ := q.den
Nat.toDigits 10 (n / d) ++
  '.' :: (if n % d = 0 then ['0'] else fracDigits (n % d) d 17)

/-- Python `str(x)` for a float value modelled as a rational. -/
def pyFloatRepr (q : ℚ) : List Char :=
if q < 0 then '-' :: qReprNonneg (-q) else qReprNonneg q

/-- Python `str(x)` on a cell value. -/
def pyStr : PyVal → List Char
| .none => "None".toList
| .num q => pyFloatRepr q
| .str s => s

/-- Stable insertion of `x` after all elements `y` with `le y x`. -/
def insertSorted (le : α → α → Bool) (x : α) : List α → List α
| [] => [x]
| y :: ys => if le y x then y :: insertSorted le x ys else x :: y :: ys

/-- Stable sort (Python `list.sort(key=...)` is stable; a stable insertion
sort by the same key produces the same list). -/
def stableSort (le : α → α → Bool) (l : List α) : List α :=
l.foldl (fun acc x => insertSorted le x acc) []

namespace AdminFee

/-! ### `admin_fee_module.py` (v17): header search, timeline construction
and aggregation -/

/-- Scan one row's columns left to right; the first cell whose lowered,
stripped text contains `work period` (or both `hours` and `payment`) is the
row's header hit, and the scan of that row stops there (`find_headers`
lines 49-63). -/
def find_headers_row_hit (sh : Sheet) (r : ℕ) : List ℕ → Option (ℕ × Bool)
| [] => Option.none
| c :: cs =>
  let val := sh.cell r c
  if val.truthy then
    let text := pyStrip (pyLower (pyStr val))
    if pyIn ("work period".toList) text then some (c, true)
    else if pyIn ("hours".toList) text ∧ pyIn ("payment".toList) text then
      some (c, false)
    else find_headers_row_hit sh r cs
  else find_headers_row_hit sh r cs

/-- `find_headers`: collect Work-Period and Hours-and-Payment headers over
the whole sheet, preferring the Work-Period list when nonempty. -/
def find_headers (sh : Sheet) : List (ℕ × ℕ × List Char) :=
let step := fun (acc : List (ℕ × ℕ × List Char) × List (ℕ × ℕ × List Char)) (r : ℕ) =>
  match find_headers_row_hit sh r (List.range sh.ncols) with
  | some (c, true) => (acc.1 ++ [(r, c, "Work Period".toList)], acc.2)
  | some (c, false) => (acc.1, acc.2 ++ [(r, c, "Hours & Payment".toList)])
  | Option.none => acc
let pair := (List.range sh.nrows).foldl step ([], [])
if pair.1 ≠ [] then pair.1 else pair.2

/-- Timeline entries contributed by one cell (`find_all_admin_fees_around_header`
lines 71-90): an effective-dated label with a parsable date and a positive
adjacent rate, or a bare static label with a positive adjacent rate
(recorded with the `(0, 0, 0)` sentinel date). -/
def feesInCell (sh : Sheet) (r c : ℕ) : List ((ℕ × ℕ × ℕ) × ℚ) :=
let val := sh.cell r c
if val.truthy then
  let text := pyStrip (pyLower (pyStr val))
  if pyIn ("admin fee eff".toList) text then
    match parse_admin_fee_eff_date text with
    | some dt =>
      if c + 1 < sh.ncols then
        let rate := safe_float (sh.cell r (c + 1))
        if 0 < rate then [(dt, rate)] else []
      else []
    | Option.none => []
  else if text = "admin fee".toList ∨ text = "adminfee".toList then
    if c + 1 < sh.ncols then
      let rate := safe_float (sh.cell r (c + 1))
      if 0 < rate then [((0, 0, 0), rate)] else []
    else []
  else []
else []

/-- All entries found in the row band `[lo, hi)`, all columns, in scan
order. -/
def feesInRows (sh : Sheet) (lo hi : ℕ) : List ((ℕ × ℕ × ℕ) × ℚ) :=
(List.range' lo (hi - lo)).flatMap (fun r =>
  (List.range sh.ncols).flatMap (fun c => feesInCell sh r c))

/-- The v17 sort key: `(year, month)` for dated entries, `(0, 0)` for the
static sentinel. -/
def sortKeyV17 (p : (ℕ × ℕ × ℕ) × ℚ) : ℕ × ℕ :=
if 0 < p.1.2.2 then (p.1.2.2, p.1.1) else (0, 0)

/-- `find_all_admin_fees_around_header`: scan ten rows above and ten rows
below the header, then stable-sort by the v17 key. -/
def find_all_admin_fees_around_header (sh : Sheet) (headerRow searchRows : ℕ) :
    List ((ℕ × ℕ × ℕ) × ℚ) :=
stableSort (fun a b => pyTupleLE2 (sortKeyV17 a) (sortKeyV17 b))
  (feesInRows sh (headerRow - searchRows) headerRow ++
    feesInRows sh (headerRow + 1) (min sh.nrows (headerRow + searchRows)))

/-- The row labels that end a section's data (`calculate_admin_fee_for_paysheet`
line 154). -/
def keywordsV17 : List (List Char) :=
["total".toList, "deductions".toList, "gross".toList, "taxes".toList,
  "buffer".toList, "net".toList, "ot rate".toList, "rate".toList, "employee".toList]

/-- One row of the v17 aggregation loop (lines 149-168): skip empty cells,
terminator labels, unparsable periods and periods outside the target month
and year; otherwise add the positive adjacent hours and `hours × rate` to
the section accumulators. -/
def processRow (sh : Sheet) (month year : ℕ) (rate : ℚ) (dateCol hoursCol : ℕ)
    (st : ℚ × ℚ) (r : ℕ) : ℚ × ℚ :=
let periodVal := sh.cell r dateCol
if !periodVal.truthy then st
else
  let pstr := pyStrip (pyLower (pyStr periodVal))
  if keywordsV17.any (fun k => pyIn k pstr) then st
  else
    match extract_date_from_period pstr with
    | Option.none => st
    | some (pm, _, py) =>
      if pm ≠ month ∨ py ≠ year then st
      else if hoursCol < sh.ncols then
        let hours := safe_float (sh.cell r hoursCol)
        if 0 < hours then (st.1 + hours, st.2 + hours * rate) else st
      else st

/-- One header's section in the v17 aggregation (lines 130-173): build the
timeline, resolve the month's rate, walk the rows up to the next header,
and fold positive section totals into the running totals. -/
def processSection (sh : Sheet) (month year : ℕ)
    (headers : List (ℕ × ℕ × List Char)) (st : ℚ × ℚ × ℚ)
    (ih : ℕ × (ℕ × ℕ × List Char)) : ℚ × ℚ × ℚ :=
let hpRow := ih.2.1
let hpCol := ih.2.2.1
let nextHeaderRow := match headers.get? (ih.1 + 1) with
  | some h => h.1
  | Option.none => sh.nrows
let fees := find_all_admin_fees_around_header sh hpRow 10
if fees = [] then st
else
  let rate := get_applicable_admin_fee fees month year
  if rate = 0 then st
  else
    let proj := (List.range' (hpRow + 1) (nextHeaderRow - (hpRow + 1))).foldl
      (processRow sh month year rate hpCol (hpCol + 1)) (0, 0)
    if 0 < proj.1 then (st.1 + proj.1, rate, st.2.2 + proj.2) else st

/-- The v17 aggregation over an opened workbook: pick the first sheet whose
name contains `2025`, find headers, and fold the sections. -/
def calcFromBook (book : Book) (month year : ℕ) : ℚ × ℚ × ℚ :=
match book.find? (fun p => pyIn ("2025".toList) p.1) with
| Option.none => (0, 0, 0)
| some nsh =>
  let sh := nsh.2
  let headers := find_headers sh
  if headers = [] then (0, 0, 0)
  else headers.enum.foldl (processSection sh month year headers) (0, 0, 0)

/-- `calculate_admin_fee_for_paysheet` (`admin_fee_module.py` lines
111-177): the whole body runs under a bare `except` that swallows every
failure, including the document-level inability to open the workbook, and
returns the zero triple. -/
def calculate_admin_fee_for_paysheet (load : Except (List Char) Book)
    (month year : ℕ) : ℚ × ℚ × ℚ :=
match load with
| .error _ => (0, 0, 0)
| .ok book => calcFromBook book month year

end AdminFee

namespace AdminFeeV18b

/-! ### `admin_fee_module_v18b.py`: header search, timeline construction
and aggregation with the full-month override -/

/-- Scan one row's columns; the first truthy cell whose lowered, stripped
text equals `work period` or `hours & payment` is the row's header, and the
scan of that row stops (`calculate_admin_fee_for_paysheet` lines 140-148). -/
def find_headers_row_hit (sh : Sheet) (r : ℕ) : List ℕ → Option (ℕ × List Char)
| [] => Option.none
| c :: cs =>
  let val := sh.cell r c
  if val.truthy then
    let text := pyStrip (pyLower (pyStr val))
    if text = "work period".toList ∨ text = "hours & payment".toList then some (c, text)
    else find_headers_row_hit sh r cs
  else find_headers_row_hit sh r cs

/-- All section headers of the sheet, in row order. -/
def find_headers (sh : Sheet) : List (ℕ × ℕ × List Char) :=
(List.range sh.nrows).foldl (fun acc r =>
  match find_headers_row_hit sh r (List.range sh.ncols) with
  | some (c, text) => acc ++ [(r, c, text)]
  | Option.none => acc) []

/-- First row after the header that ends the section (lines 154-170): a
truthy cell in the header column containing a terminator label, or — when a
later header exists — any truthy cell within five rows of it.  Defaults to
the sheet's row count. -/
def sectionEnd (sh : Sheet) (hpRow hpCol : ℕ) (notLast : Bool) (nextHpRow : ℕ) : ℕ :=
match (List.range' (hpRow + 1) (sh.nrows - (hpRow + 1))).find? (fun r =>
    let v := sh.cell r hpCol
    v.truthy &&
      (["total".toList, "admin fees".toList, "deductions".toList].any
          (fun k => pyIn k (pyStrip (pyLower (pyStr v)))) ||
        (notLast && decide (nextHpRow - 5 ≤ r)))) with
| some r => r
| Option.none => sh.nrows

/-- Timeline entries contributed by one cell of the band above the header
(`find_admin_fee_eff` lines 48-64): a cell containing `admin fee eff`
(lower-cased, not stripped) with a parsable date and a positive adjacent
rate. -/
def feeInCell (sh : Sheet) (r c : ℕ) : List ((ℕ × ℕ × ℕ) × ℚ) :=
let v := sh.cell r c
if v.truthy && pyIn ("admin fee eff".toList) (pyLower (pyStr v)) then
  match parse_admin_fee_eff_date (pyStr v) with
  | some dt =>
    if c + 1 < sh.ncols then
      let rate := safe_float (sh.cell r (c + 1))
      if 0 < rate then [(dt, rate)] else []
    else []
  | Option.none => []
else []

/-- `find_admin_fee_eff`: scan ten rows above the header, all columns, and
sort the entries by `(year, month, day)` (stable). -/
def find_admin_fee_eff (sh : Sheet) (headerRow searchRows : ℕ) :
    List ((ℕ × ℕ × ℕ) × ℚ) :=
stableSort (fun a b =>
    pyTupleLE3 (a.1.2.2, a.1.1, a.1.2.1) (b.1.2.2, b.1.1, b.1.2.1))
  ((List.range' (headerRow - searchRows) (headerRow - (headerRow - searchRows))).flatMap
    (fun r => (List.range sh.ncols).flatMap (fun c => feeInCell sh r c)))

/-- One cell of the static-rate search (`find_static_admin_fee` lines
66-80): a bare `admin fee` label with a positive adjacent rate. -/
def staticInCell (sh : Sheet) (r c : ℕ) : Option ℚ :=
let v := sh.cell r c
if v.truthy then
  let text := pyStrip (pyLower (pyStr v))
  if (text = "admin fee".toList ∨ text = "adminfee".toList) ∧
      ¬(pyIn ("eff".toList) text = true) then
    if c + 1 < sh.ncols then
      let rate := safe_float (sh.cell r (c + 1))
      if 0 < rate then some rate else Option.none
    else Option.none
  else Option.none
else Option.none

/-- `find_static_admin_fee`: first hit in the band above the header, `0`
if none. -/
def find_static_admin_fee (sh : Sheet) (headerRow searchRows : ℕ) : ℚ :=
match (List.range' (headerRow - searchRows) (headerRow - (headerRow - searchRows))).findSome?
    (fun r => (List.range sh.ncols).findSome? (fun c => staticInCell sh r c)) with
| some rate => rate
| Option.none => 0

/-- One row of the v18b timeline-based section loop (lines 196-262).  Range
periods in the target month and year with positive hours contribute
`hours × rate` when the row's resolved rate gives a positive fee, where the
rate is the full-month effective rate for full-month periods when a
mid-month entry exists, and start-date resolution otherwise.  Single-date
rows in the target month and year with a positive adjacent amount and a
positive resolved rate contribute the amount directly, counting one unit of
hours. -/
def processRowFees (sh : Sheet) (month year : ℕ) (hpCol : ℕ)
    (fees : List ((ℕ × ℕ × ℕ) × ℚ)) (hasMid : Bool) (fullRate : ℚ)
    (st : ℚ × ℚ × ℚ) (r : ℕ) : ℚ × ℚ × ℚ :=
let v := sh.cell r hpCol
if !v.truthy then st
else
  let pstr := pyStrip (pyLower (pyStr v))
  match extract_period_dates pstr with
  | some se =>
    let startDate := se.1
    let endDate := se.2
    if startDate.1 ≠ month ∨ startDate.2.2 ≠ year then st
    else
      let hours := safe_float (sh.cell r (hpCol + 1))
      if hours ≤ 0 then st
      else
        let rate := if is_full_month_period startDate endDate && hasMid then fullRate
          else get_rate_for_date fees startDate
        let fee := if 0 < rate then hours * rate else 0
        if 0 < fee then (st.1 + hours, st.2.1 + fee, rate) else st
  | Option.none =>
    match extract_single_date pstr with
    | some d =>
      if d.1 ≠ month ∨ d.2.2 ≠ year then st
      else
        let amount := safe_float (sh.cell r (hpCol + 1))
        if amount ≤ 0 then st
        else
          let rate := get_rate_for_date fees d
          if 0 < rate then (st.1 + 1, st.2.1 + amount, rate) else st
    | Option.none => st

/-- One row of the static-rate fallback loop (lines 275-291): range periods
in the target month and year with positive hours contribute their hours. -/
def processRowStatic (sh : Sheet) (month year : ℕ) (hpCol : ℕ)
    (sH : ℚ) (r : ℕ) : ℚ :=
let v := sh.cell r hpCol
if !v.truthy then sH
else
  let pstr := pyStrip (pyLower (pyStr v))
  match extract_period_dates pstr with
  | Option.none => sH
  | some se =>
    if se.1.1 ≠ month ∨ se.1.2.2 ≠ year then sH
    else
      let hours := safe_float (sh.cell r (hpCol + 1))
      if 0 < hours then sH + hours else sH

/-- The section timeline (lines 177-181): the effective-dated entries, with
the static rate prepended as a dated `1/1/2025` entry when both exist. -/
def sectionFees (sh : Sheet) (hpRow : ℕ) : List ((ℕ × ℕ × ℕ) × ℚ) :=
let fees0 := find_admin_fee_eff sh hpRow 10
let staticRate := find_static_admin_fee sh hpRow 10
if fees0 ≠ [] ∧ 0 < staticRate then ((1, 1, 2025), staticRate) :: fees0 else fees0

/-- The timeline-based section row loop (lines 187-262), accumulating
`(hours, fee, rate)` from zero over the rows in `[lo, hi)`. -/
def sectionLoop (sh : Sheet) (month year hpCol : ℕ)
    (fees : List ((ℕ × ℕ × ℕ) × ℚ)) (lo hi : ℕ) : ℚ × ℚ × ℚ :=
(List.range' lo (hi - lo)).foldl
  (processRowFees sh month year hpCol fees (has_mid_month_eff fees month)
    (get_full_month_eff_rate fees month)) (0, 0, 0)

/-- The static-rate fallback row loop (lines 272-291), summing matching
hours over the rows in `[lo, hi)`. -/
def staticLoop (sh : Sheet) (month year hpCol : ℕ) (lo hi : ℕ) : ℚ :=
(List.range' lo (hi - lo)).foldl (processRowStatic sh month year hpCol) 0

/-- One header's section of the v18b aggregation (lines 153-299): find the
section end, build the timeline, and fold the section totals; with no
timeline but a positive static rate, sum the matching hours at the static
rate. -/
def processSection (sh : Sheet) (month year : ℕ)
    (headers : List (ℕ × ℕ × List Char)) (st : ℚ × ℚ × ℚ)
    (ih : ℕ × (ℕ × ℕ × List Char)) : ℚ × ℚ × ℚ :=
let hpRow := ih.2.1
let hpCol := ih.2.2.1
let notLast := decide (ih.1 < headers.length - 1)
let nextHpRow := match headers.get? (ih.1 + 1) with
  | some h => h.1
  | Option.none => 0
let secEnd := sectionEnd sh hpRow hpCol notLast nextHpRow
let staticRate := find_static_admin_fee sh hpRow 10
let fees := sectionFees sh hpRow
if fees ≠ [] then
  let sec := sectionLoop sh month year hpCol fees (hpRow + 1) secEnd
  if 0 < sec.1 then (st.1 + sec.1, sec.2.2, st.2.2 + sec.2.1) else st
else if 0 < staticRate then
  let sH := staticLoop sh month year hpCol (hpRow + 1) secEnd
  if 0 < sH then (st.1 + sH, staticRate, st.2.2 + sH * staticRate) else st
else st

/-- The v18b aggregation over an opened workbook: pick the first sheet whose
name contains `2025`, find headers, and fold the sections. -/
def calcFromBook (book : Book) (month year : ℕ) : ℚ × ℚ × ℚ :=
match book.find? (fun p => pyIn ("2025".toList) p.1) with
| Option.none => (0, 0, 0)
| some nsh =>
  let sh := nsh.2
  let headers := find_headers sh
  if headers = [] then (0, 0, 0)
  else headers.enum.foldl (processSection sh month year headers) (0, 0, 0)

/-- `calculate_admin_fee_for_paysheet` (`admin_fee_module_v18b.py` lines
119-310): like v17, the whole body runs under a bare `except` that swallows
every failure, including document-level I/O faults, returning zeros. -/
def calculate_admin_fee_for_paysheet (load : Except (List Char) Book)
    (month year : ℕ) : ℚ × ℚ × ℚ :=
match load with
| .error _ => (0, 0, 0)
| .ok book => calcFromBook book month year

end AdminFeeV18b

namespace Accrual

/-! ### `accrual_updater.py`, `parse_paysheet` (the B/C paysheet scan) -/

/-- `bc_cols if bc_cols else [1, 2]` — an absent or empty list falls back
to columns B and C. -/
def bcColsUse (bcCols : Option (List ℕ)) : List ℕ :=
match bcCols with
| some l => if l = [] then [1, 2] else l
| Option.none => [1, 2]

/-- `nrows if (not bc_scan_rows or bc_scan_rows <= 0) else min(bc_scan_rows, nrows)`. -/
def rowsToScan (bcScanRows : Option ℕ) (nrows : ℕ) : ℕ :=
match bcScanRows with
| some k => if k = 0 then nrows else min k nrows
| Option.none => nrows

/-- One `(row, column)` probe of the scan (lines 272-314): the cell must be
present with nonempty stripped text, pass the month filter, have positive
adjacent hours of at most 500, and contributes the following column's value
as payment when it reaches the minimum payment threshold. -/
def processCell (sh : Sheet) (month : ℕ) (bcPaymentMin : ℚ) (st : ℚ × ℚ)
    (r c : ℕ) : ℚ × ℚ :=
if sh.ncols ≤ c then st
else
  let raw := sh.cell r c
  if raw = PyVal.none then st
  else
    let txt := pyStrip (pyStr raw)
    if txt = [] then st
    else if !paysheet_month_filter month txt then st
    else
      let hoursVal := if c + 1 < sh.ncols then safe_float (sh.cell r (c + 1)) else 0
      if ¬(0 < hoursVal ∧ hoursVal ≤ 500) then st
      else
        let payment := if c + 2 < sh.ncols then
            (let pv := safe_float (sh.cell r (c + 2))
             if bcPaymentMin ≤ pv then pv else 0)
          else 0
        (st.1 + hoursVal, st.2 + payment)

/-- Round half to even at `k` decimal places (Python's `round` on the exact
decimal values this scan produces). -/
def roundHalfEven (q : ℚ) (k : ℕ) : ℚ :=
let s : ℚ := q * (10 : ℚ) ^ k
let n : ℤ := ⌊s⌋
let r : ℤ :=
  if s - n < 1 / 2 then n
  else if (1 : ℚ) / 2 < s - n then n + 1
  else if n % 2 = 0 then n else n + 1
(r : ℚ) / (10 : ℚ) ^ k

/-- `parse_paysheet` (`accrual_updater.py` lines 212-321).  The document
load is an `Except` input; any load failure is re-raised as a
`RuntimeError` message identifying the document path (lines 319-321).  On
success, scan the sheets whose name contains the year (or the first sheet),
and return the rounded hours and payment sums together with the unused
salary candidate. -/
def parse_paysheet (path : List Char) (month year : ℕ)
    (bcCols : Option (List ℕ)) (bcScanRows : Option ℕ) (bcPaymentMin : ℚ)
    (load : Except (List Char) Book) :
    Except (List Char) (ℚ × ℚ × Option ℚ) :=
match load with
| .error e => .error ("Failed parsing ".toList ++ path ++ ": ".toList ++ e)
| .ok dfs =>
  let selected0 := dfs.filter (fun p => pyIn (Nat.toDigits 10 year) p.1)
  let selected := if selected0.isEmpty && !dfs.isEmpty then dfs.take 1 else selected0
  let sums := selected.foldl (fun st pr =>
    let sh := pr.2
    if sh.ncols = 0 then st
    else (List.range (rowsToScan bcScanRows sh.nrows)).foldl (fun st2 r =>
      (bcColsUse bcCols).foldl (fun st3 c => processCell sh month bcPaymentMin st3 r c)
        st2) st) ((0 : ℚ), (0 : ℚ))
  .ok (roundHalfEven sums.1 4, roundHalfEven sums.2 2, Option.none)

end Accrual

example : pySafeFloatStr ("$1,234.56".toList) = 123456 / 100 := by
  have h : pySafeFloatStr ("$1,234.56".toList) =
      ((digitsVal ['1', '2', '3', '4'] : ℚ) + fracVal ['5', '6']) := rfl
  have h2 : digitsVal ['1', '2', '3', '4'] = 1234 := by decide
  have h3 : digitsVal ['5', '6'] = 56 := by decide
  rw [h]
  unfold fracVal
  rw [h2, h3]
  norm_num

/-! ## Helper lemmas -/

theorem mem_of_mem_dropWhile {p : Char → Bool} :
    ∀ {l : List Char} {c : Char}, c ∈ l.dropWhile p → c ∈ l := by
  intro l
  induction l with
  | nil => intro c h; simpa using h
  | cons a as ih =>
    intro c h
    rw [List.dropWhile] at h
    by_cases hp : p a
    · simp only [hp, if_true] at h
      exact List.mem_cons_of_mem a (ih h)
    · simp only [hp] at h
      simpa using h

theorem mem_of_mem_pyStrip {l : List Char} {c : Char} (h : c ∈ pyStrip l) : c ∈ l := by
  unfold pyStrip at h
  rw [List.mem_reverse] at h
  have h2 := mem_of_mem_dropWhile h
  rw [List.mem_reverse] at h2
  exact mem_of_mem_dropWhile h2

theorem isAlpha_eq_false_of_isDigit {c : Char} (h : c.isDigit = true) :
    c.isAlpha = false := by
  simp [Char.isDigit, Char.isAlpha, Char.isUpper, Char.isLower, UInt32.le_def,
    UInt32.lt_def, BitVec.le_def, BitVec.lt_def] at *
  omega

theorem takeWhile_mem_prop {p : Char → Bool} :
    ∀ {l : List Char} {c : Char}, c ∈ l.takeWhile p → p c = true ∧ c ∈ l := by
  intro l
  induction l with
  | nil => intro c h; simp at h
  | cons a as ih =>
    intro c h
    rw [List.takeWhile] at h
    by_cases hp : p a
    · simp only [hp, if_true] at h
      rcases List.mem_cons.mp h with h1 | h1
      · exact ⟨h1 ▸ hp, h1 ▸ List.mem_cons_self a as⟩
      · exact ⟨(ih h1).1, List.mem_cons_of_mem a (ih h1).2⟩
    · simp only [hp] at h
      simp at h

theorem dropWhile_head_false {p : Char → Bool} {l : List Char} {c : Char}
    {r : List Char} (h : l.dropWhile p = c :: r) : p c = false := by
  have := List.head?_dropWhile_not p l
  rw [h] at this
  simpa using this

theorem dropWhile_of_all_append {p : Char → Bool} {w : List Char}
    (hw : ∀ c ∈ w, p c = true) (r : List Char) :
    (w ++ r).dropWhile p = r.dropWhile p := by
  induction w with
  | nil => rfl
  | cons a as ih =>
    have ha : p a = true := hw a (List.mem_cons_self a as)
    simp only [List.cons_append, List.dropWhile, ha, if_true]
    exact ih (fun c hc => hw c (List.mem_cons_of_mem a hc))

/-! ## Claim C7: the tolerant numeric coercion -/

theorem matchUnsignedNumber_eq_none {l : List Char}
    (h : ∀ c ∈ l, c.isDigit = false) : matchUnsignedNumber l = Option.none := by
  unfold matchUnsignedNumber
  rw [List.span_eq_take_drop]
  have hempty : l.takeWhile Char.isDigit = [] := by
    cases l with
    | nil => rfl
    | cons a as =>
      rw [List.takeWhile]
      simp [h a (List.mem_cons_self a as)]
  simp [hempty]

theorem searchNumber_eq_none {l : List Char}
    (h : ∀ c ∈ l, c.isDigit = false) : searchNumber l = Option.none := by
  induction l with
  | nil => rfl
  | cons a rest ih =>
    have hrest : ∀ c ∈ rest, c.isDigit = false :=
      fun c hc => h c (List.mem_cons_of_mem a hc)
    rw [searchNumber]
    have hmatch : matchSignedNumberAt (a :: rest) = Option.none := by
      unfold matchSignedNumberAt
      by_cases hdash : a = '-'
      · rw [if_pos (by simp [hdash]), List.tail_cons,
          matchUnsignedNumber_eq_none hrest]
        rfl
      · rw [if_neg (by simp [hdash]), matchUnsignedNumber_eq_none h]
    rw [hmatch, ih hrest]

theorem pySafeFloatStr_no_digit {s : List Char}
    (h : ∀ c ∈ s, c.isDigit = false) : pySafeFloatStr s = 0 := by
  simp only [pySafeFloatStr]
  have hclean : ∀ c ∈ removeChar ')'
      (replaceChar '(' '-' (removeChar '$' (removeChar ',' (pyStrip s)))),
      c.isDigit = false := by
    intro c hcmem
    have h1 : c ∈ replaceChar '(' '-' (removeChar '$' (removeChar ',' (pyStrip s))) :=
      List.mem_of_mem_filter hcmem
    rcases List.mem_map.mp h1 with ⟨x, hx, hxc⟩
    have hx2 : x ∈ pyStrip s :=
      List.mem_of_mem_filter (List.mem_of_mem_filter hx)
    have hx3 : x.isDigit = false := h x (mem_of_mem_pyStrip hx2)
    by_cases hpar : x = '('
    · have : c = '-' := by rw [← hxc, if_pos hpar]
      rw [this]; rfl
    · have : c = x := by rw [← hxc, if_neg hpar]
      rw [this]; exact hx3
  rw [searchNumber_eq_none hclean]
  split <;> rfl

/-- Claim C7: the tolerant numeric coercion is total and never raises; it
strips currency symbols and commas, treats parentheses as negation, and
extracts the first signed decimal substring; `"$1,234.56"` coerces to
`1234.56`, `"(500)"` to `-500`, `""` to `0`, `"abc"` to `0`, and any string
with no digit at all coerces to `0`. -/
theorem claim_C7 :
    safe_float (.str ("$1,234.56".toList)) = 123456 / 100 ∧
    safe_float (.str ("(500)".toList)) = -500 ∧
    safe_float (.str ("".toList)) = 0 ∧
    safe_float (.str ("abc".toList)) = 0 ∧
    (∀ s : List Char, (∀ c ∈ s, c.isDigit = false) → safe_float (.str s) = 0) := by
  refine ⟨?_, by decide, by decide, by decide, fun s hs => pySafeFloatStr_no_digit hs⟩
  show pySafeFloatStr ("$1,234.56".toList) = 123456 / 100
  have h : pySafeFloatStr ("$1,234.56".toList) =
      ((digitsVal ['1', '2', '3', '4'] : ℚ) + fracVal ['5', '6']) := rfl
  have h2 : digitsVal ['1', '2', '3', '4'] = 1234 := by decide
  have h3 : digitsVal ['5', '6'] = 56 := by decide
  rw [h]
  unfold fracVal
  rw [h2, h3]
  norm_num

/-- Witness for C7: the no-digit clause applied at the concrete input
`"abc"`. -/
theorem claim_C7_witness : safe_float (.str ("abc".toList)) = 0 :=
  claim_C7.2.2.2.2 ("abc".toList) (by decide)

/-! ## Claim C6: the OT classifier -/

theorem dropWhile_idem (p : Char → Bool) (l : List Char) :
    (l.dropWhile p).dropWhile p = l.dropWhile p := by
  cases hd : l.dropWhile p with
  | nil => rfl
  | cons c r =>
    rw [List.dropWhile]
    simp [dropWhile_head_false hd]

theorem pyStrip_reverse_dropWhile (l : List Char) :
    (pyStrip l).reverse.dropWhile isPySpace = (pyStrip l).reverse := by
  unfold pyStrip
  rw [List.reverse_reverse]
  exact dropWhile_idem isPySpace (l.dropWhile isPySpace).reverse

theorem ot_checkers_iff {u : List Char}
    (hu : u.reverse.dropWhile isPySpace = u.reverse) :
    (searchDashOT u || endsWithDashOT u || searchSpaceOT u) = true ↔
      (specEndsDashOT u ∨ specHyphenSepOT u ∨ specSpaceSepOT u) := by
  constructor
  · intro h
    rcases Bool.or_eq_true_iff.mp h with h | h
    rcases Bool.or_eq_true_iff.mp h with h | h
    · -- searchDashOT
      unfold searchDashOT at h
      rw [hu] at h
      cases hrev : u.reverse with
      | nil => rw [hrev] at h; simp at h
      | cons c1 t1 =>
        cases t1 with
        | nil => rw [hrev] at h; simp at h
        | cons c2 r2 =>
          rw [hrev] at h
          simp only [Bool.and_eq_true, decide_eq_true_eq] at h
          obtain ⟨⟨hc1, hc2⟩, hrest⟩ := h
          cases hd : r2.dropWhile isPySpace with
          | nil => rw [hd] at hrest; simp at hrest
          | cons c3 r3 =>
            rw [hd] at hrest
            simp only [decide_eq_true_eq] at hrest
            obtain ⟨w1, hw1all, hr2⟩ :
                ∃ w1, (∀ c ∈ w1, isPySpace c = true) ∧ r2 = w1 ++ '-' :: r3 := by
              refine ⟨r2.takeWhile isPySpace,
                fun c hc => (takeWhile_mem_prop hc).1, ?_⟩
              have h0 : r2.takeWhile isPySpace ++ r2.dropWhile isPySpace = r2 :=
                List.takeWhile_append_dropWhile isPySpace r2
              rw [hd, hrest] at h0
              exact h0.symm
            right; left
            refine ⟨r3.reverse, w1.reverse, ?_, ?_⟩
            · intro c hc
              exact hw1all c (List.mem_reverse.mp hc)
            · have hrr : u = u.reverse.reverse := (List.reverse_reverse u).symm
              rw [hrr, hrev, hc1, hc2, hr2]
              simp
    · -- endsWithDashOT
      unfold endsWithDashOT at h
      cases hrev : u.reverse with
      | nil => rw [hrev] at h; simp at h
      | cons c1 t1 =>
        cases t1 with
        | nil => rw [hrev] at h; simp at h
        | cons c2 t2 =>
          cases t2 with
          | nil => rw [hrev] at h; simp at h
          | cons c3 t3 =>
            rw [hrev] at h
            simp only [Bool.and_eq_true, decide_eq_true_eq] at h
            obtain ⟨⟨hc1, hc2⟩, hc3⟩ := h
            left
            refine ⟨t3.reverse, ?_⟩
            have : u = u.reverse.reverse := (List.reverse_reverse u).symm
            rw [this, hrev, hc1, hc2, hc3]
            simp
    · -- searchSpaceOT
      unfold searchSpaceOT at h
      rw [hu] at h
      cases hrev : u.reverse with
      | nil => rw [hrev] at h; simp at h
      | cons c1 t1 =>
        cases t1 with
        | nil => rw [hrev] at h; simp at h
        | cons c2 t2 =>
          cases t2 with
          | nil => rw [hrev] at h; simp at h
          | cons c3 t3 =>
            rw [hrev] at h
            simp only [Bool.and_eq_true, decide_eq_true_eq] at h
            obtain ⟨⟨hc1, hc2⟩, hc3⟩ := h
            right; right
            refine ⟨t3.reverse, [c3], by simp, fun c hc => by
              simp at hc; rw [hc]; exact hc3, ?_⟩
            have : u = u.reverse.reverse := (List.reverse_reverse u).symm
            rw [this, hrev, hc1, hc2]
            simp
  · intro h
    rcases h with ⟨a, ha⟩ | ⟨a, w, hw, ha⟩ | ⟨a, w, hne, hw, ha⟩
    · -- ends with -OT: endsWithDashOT fires
      have : endsWithDashOT u = true := by
        unfold endsWithDashOT
        rw [ha]
        simp
      simp [this]
    · -- hyphen-separated OT: searchDashOT fires
      have : searchDashOT u = true := by
        unfold searchDashOT
        rw [hu, ha]
        have hrw : (a ++ '-' :: (w ++ ['O', 'T'])).reverse =
            'T' :: 'O' :: (w.reverse ++ '-' :: a.reverse) := by simp
        rw [hrw]
        have hdw : (w.reverse ++ '-' :: a.reverse).dropWhile isPySpace =
            '-' :: a.reverse := by
          rw [dropWhile_of_all_append (fun c hc => hw c (List.mem_reverse.mp hc))]
          rw [List.dropWhile_cons, if_neg (by simp [isPySpace])]
        simp [hdw]
      simp [this]
    · -- whitespace-separated OT: searchSpaceOT fires
      have : searchSpaceOT u = true := by
        unfold searchSpaceOT
        rw [hu, ha]
        obtain ⟨c, t, hct⟩ : ∃ c t, w.reverse = c :: t := by
          cases hwrev : w.reverse with
          | nil => exact absurd (by simpa using congrArg List.reverse hwrev) hne
          | cons c t => exact ⟨c, t, rfl⟩
        have hrw : (a ++ w ++ ['O', 'T']).reverse =
            'T' :: 'O' :: c :: (t ++ a.reverse) := by
          simp [hct]
        rw [hrw]
        have hc : isPySpace c = true :=
          hw c (List.mem_reverse.mp (by rw [hct]; exact List.mem_cons_self c t))
        simp [hc]
      simp [this]

/-- Claim C6: the OT classifier returns true exactly when the trimmed
upper-cased label ends with `-OT`, with a hyphen-separated `OT` token
(optional whitespace around the hyphen), or with a whitespace-separated `OT`
token; in particular the two spec examples classify as overtime and the
plain and `-OTHER` labels do not. -/
theorem claim_C6 :
    (∀ s : List Char, detect_ot_suffix s = true ↔ spec_is_overtime s) ∧
    detect_ot_suffix ("06/01-06/07/2025-OT".toList) = true ∧
    detect_ot_suffix ("06/01-06/07/2025 OT".toList) = true ∧
    detect_ot_suffix ("06/01-06/07/2025".toList) = false ∧
    detect_ot_suffix ("06/01-06/07/2025-OTHER".toList) = false := by
  refine ⟨?_, by decide, by decide, by decide, by decide⟩
  intro s
  unfold detect_ot_suffix spec_is_overtime
  by_cases hs : s = []
  · subst hs
    simp only [if_pos rfl]
    constructor
    · intro h; exact absurd h (by simp)
    · intro h
      have hu : pyStrip (pyUpper []) = [] := by rfl
      rw [hu] at h
      rcases h with ⟨a, ha⟩ | ⟨a, w, _, ha⟩ | ⟨a, w, _, _, ha⟩ <;> simp at ha
  · rw [if_neg hs]
    exact ot_checkers_iff (pyStrip_reverse_dropWhile (pyUpper s))

/-! ## Claim C1: anchored month matching -/

theorem digitChar_isDigit (n : ℕ) : (digitChar n).isDigit = true := by
  unfold digitChar
  rcases n with _ | _ | _ | _ | _ | _ | _ | _ | _ | _ <;> rfl

theorem digitChar_not_alpha (n : ℕ) : (digitChar n).isAlpha = false :=
  isAlpha_eq_false_of_isDigit (digitChar_isDigit n)

theorem digitVal_digitChar {n : ℕ} (h : n ≤ 9) : digitVal (digitChar n) = n := by
  interval_cases n <;> rfl

theorem digitsVal_singleton (c : Char) : digitsVal [c] = digitVal c := by
  simp [digitsVal]

theorem digitsVal_pair (c d : Char) : digitsVal [c, d] = 10 * digitVal c + digitVal d := by
  simp [digitsVal]

theorem digitsVal_cons_zero (l : List Char) : digitsVal ('0' :: l) = digitsVal l := by
  unfold digitsVal digitVal
  rw [List.foldl_cons]
  have h0 : 10 * 0 + ('0'.toNat - 48) = 0 := by decide
  rw [h0]

theorem monthStr_all_digit (M : ℕ) : ∀ c ∈ monthStr M, c.isDigit = true := by
  unfold monthStr
  split <;> intro c hc <;> simp at hc
  · rw [hc]; exact digitChar_isDigit M
  · rcases hc with hc | hc <;> rw [hc] <;> exact digitChar_isDigit _

theorem digitsVal_monthStr {M : ℕ} (h : M ≤ 99) : digitsVal (monthStr M) = M := by
  unfold monthStr
  split
  · rw [digitsVal_singleton, digitVal_digitChar (by omega)]
  · rw [digitsVal_pair, digitVal_digitChar (by omega), digitVal_digitChar (by omega)]
    omega

theorem digit_run_unique :
    ∀ (a : List Char) {b : List Char} {c d : Char} {r s : List Char},
      (∀ x ∈ a, x.isDigit = true) → (∀ x ∈ b, x.isDigit = true) →
      c.isDigit = false → d.isDigit = false →
      a ++ c :: r = b ++ d :: s → a = b ∧ c = d ∧ r = s := by
  intro a
  induction a with
  | nil =>
    intro b c d r s _ hb hc hd heq
    cases b with
    | nil => simpa using heq
    | cons x xs =>
      simp only [List.nil_append, List.cons_append, List.cons.injEq] at heq
      exact absurd (heq.1 ▸ hb x (List.mem_cons_self x xs)) (by simp [hc])
  | cons y ys ih =>
    intro b c d r s ha hb hc hd heq
    cases b with
    | nil =>
      simp only [List.nil_append, List.cons_append, List.cons.injEq] at heq
      exact absurd (heq.1.symm ▸ ha y (List.mem_cons_self y ys)) (by simp [hd])
    | cons x xs =>
      simp only [List.cons_append, List.cons.injEq] at heq
      obtain ⟨h1, h2⟩ := heq
      obtain ⟨e1, e2, e3⟩ := ih (fun u hu => ha u (List.mem_cons_of_mem y hu))
        (fun u hu => hb u (List.mem_cons_of_mem x hu)) hc hd h2
      exact ⟨by rw [h1, e1], e2, e3⟩

theorem isPrefixOf_decomp : ∀ {p l : List Char}, p.isPrefixOf l = true →
    ∃ t, l = p ++ t := by
  intro p
  induction p with
  | nil => intro l _; exact ⟨l, rfl⟩
  | cons a as ih =>
    intro l h
    cases l with
    | nil => simp [List.isPrefixOf] at h
    | cons b bs =>
      rw [List.isPrefixOf, Bool.and_eq_true] at h
      obtain ⟨h1, h2⟩ := h
      rw [beq_iff_eq] at h1
      obtain ⟨t, ht⟩ := ih h2
      exact ⟨t, by rw [h1, ht, List.cons_append]⟩

theorem billed_filter_true_decomp {M : ℕ} {txt : List Char} (hM : M ≤ 99)
    (h : billed_month_filter M txt = true) :
    ∃ p sep tail, (∀ c ∈ p, c.isDigit = true) ∧ digitsVal p = M ∧
      (sep = '/' ∨ sep = '-') ∧ txt = p ++ sep :: tail := by
  unfold billed_month_filter at h
  have hdig0 : ∀ c ∈ '0' :: monthStr M, c.isDigit = true := by
    intro c hc
    rcases List.mem_cons.mp hc with hc | hc
    · rw [hc]; rfl
    · exact monthStr_all_digit M c hc
  rcases Bool.or_eq_true_iff.mp h with h | h
  rcases Bool.or_eq_true_iff.mp h with h | h
  rcases Bool.or_eq_true_iff.mp h with h | h
  · obtain ⟨t, ht⟩ := isPrefixOf_decomp h
    exact ⟨monthStr M, '/', t, monthStr_all_digit M, digitsVal_monthStr hM,
      Or.inl rfl, by rw [ht]; simp⟩
  · obtain ⟨t, ht⟩ := isPrefixOf_decomp h
    exact ⟨monthStr M, '-', t, monthStr_all_digit M, digitsVal_monthStr hM,
      Or.inr rfl, by rw [ht]; simp⟩
  · obtain ⟨t, ht⟩ := isPrefixOf_decomp h
    exact ⟨'0' :: monthStr M, '/', t, hdig0,
      by rw [digitsVal_cons_zero]; exact digitsVal_monthStr hM,
      Or.inl rfl, by rw [ht]; simp⟩
  · obtain ⟨t, ht⟩ := isPrefixOf_decomp h
    exact ⟨'0' :: monthStr M, '-', t, hdig0,
      by rw [digitsVal_cons_zero]; exact digitsVal_monthStr hM,
      Or.inr rfl, by rw [ht]; simp⟩

theorem stripLetters_append_sep {ds : List Char} {sep : Char} {rest : List Char}
    (hds : ∀ c ∈ ds, c.isDigit = true) (hsep : sep.isAlpha = false) :
    stripLetters (ds ++ sep :: rest) = ds ++ sep :: stripLetters rest := by
  unfold stripLetters
  rw [List.filter_append]
  congr 1
  · exact List.filter_eq_self.mpr (fun c hc => by
      simp [isAlpha_eq_false_of_isDigit (hds c hc)])
  · rw [List.filter_cons]
    simp [hsep]

theorem firstNum12_leading {ds : List Char} {sep : Char} {rest : List Char}
    (hds : ∀ c ∈ ds, c.isDigit = true)
    (hlen : ds.length = 1 ∨ ds.length = 2)
    (hsep : sep.isDigit = false) :
    firstNum12 (ds ++ sep :: rest) = some (digitsVal ds) := by
  match ds, hlen with
  | [c], _ =>
    have hc : c.isDigit = true := hds c (by simp)
    simp only [List.cons_append, List.nil_append]
    rw [firstNum12]
    simp [hc, hsep, digitsVal_singleton]
  | [c, d], _ =>
    have hc : c.isDigit = true := hds c (by simp)
    have hd : d.isDigit = true := hds d (by simp)
    simp only [List.cons_append, List.nil_append]
    rw [firstNum12]
    simp [hc, hd, digitsVal_pair]

/-- Claim C1: a period string whose leading month token (one or two digits
followed by a slash or dash) differs from the target month `M` matches
neither the billed-with-OT month filter nor the paysheet-scan month filter,
whatever follows — in particular whenever a later day token equals `M`. -/
theorem claim_C1 (M : ℕ) (ds : List Char) (sep : Char) (rest : List Char)
    (hM1 : 1 ≤ M) (hM2 : M ≤ 12)
    (hds : ∀ c ∈ ds, c.isDigit = true)
    (hlen : ds.length = 1 ∨ ds.length = 2)
    (hsep : sep = '/' ∨ sep = '-')
    (hne : digitsVal ds ≠ M) :
    billed_month_filter M (ds ++ sep :: rest) = false ∧
    paysheet_month_filter M (ds ++ sep :: rest) = false := by
  have hsepdig : sep.isDigit = false := by rcases hsep with h | h <;> rw [h] <;> rfl
  have hsepalpha : sep.isAlpha = false := by rcases hsep with h | h <;> rw [h] <;> rfl
  constructor
  · by_contra hb
    rw [Bool.not_eq_false] at hb
    obtain ⟨p, sep', tail, hp, hval, hsep', heq⟩ :=
      billed_filter_true_decomp (by omega) hb
    have hsep'dig : sep'.isDigit = false := by
      rcases hsep' with h | h <;> rw [h] <;> rfl
    obtain ⟨he, _, _⟩ := digit_run_unique ds hds hp hsepdig hsep'dig heq
    exact hne (by rw [he, hval])
  · unfold paysheet_month_filter first_numeric_token_from_text
    rw [stripLetters_append_sep hds hsepalpha,
      firstNum12_leading hds hlen hsepdig]
    simp [hne]

/-- Witness for C1: the spec's regression example — the January period
`01/06-01/12/2025` does not match target month 6 under either filter,
despite its day token `06`. -/
theorem claim_C1_witness :
    billed_month_filter 6 (['0', '1'] ++ '/' :: ("06-01/12/2025".toList)) = false ∧
    paysheet_month_filter 6 (['0', '1'] ++ '/' :: ("06-01/12/2025".toList)) = false :=
  claim_C1 6 ['0', '1'] '/' ("06-01/12/2025".toList) (by decide) (by decide)
    (by decide) (by decide) (by decide) (by decide)

/-! ## Claims C3 and C4: rate-timeline resolution -/

theorem dateLE_total (a b : ℕ × ℕ × ℕ) :
    dateLE a b = true ∨ dateLE b a = true := by
  simp only [dateLE, pyTupleLE3, decide_eq_true_eq]
  omega

theorem dateLE_trans {a b c : ℕ × ℕ × ℕ}
    (h1 : dateLE a b = true) (h2 : dateLE b c = true) : dateLE a c = true := by
  simp only [dateLE, pyTupleLE3, decide_eq_true_eq] at *
  omega

theorem dateLE_of_not_ge {a b : ℕ × ℕ × ℕ} (h : dateLE b a = false) :
    dateLE a b = true := by
  rcases dateLE_total a b with h1 | h1
  · exact h1
  · rw [h1] at h; exact absurd h (by simp)

theorem pairLE_trans {a b c : ℕ × ℕ}
    (h1 : pyTupleLE2 a b = true) (h2 : pyTupleLE2 b c = true) :
    pyTupleLE2 a c = true := by
  simp only [pyTupleLE2, decide_eq_true_eq] at *
  omega

theorem pairLE_total (a b : ℕ × ℕ) :
    pyTupleLE2 a b = true ∨ pyTupleLE2 b a = true := by
  simp only [pyTupleLE2, decide_eq_true_eq]
  omega

theorem pairLE_of_not_ge {a b : ℕ × ℕ} (h : pyTupleLE2 b a = false) :
    pyTupleLE2 a b = true := by
  rcases pairLE_total a b with h1 | h1
  · exact h1
  · rw [h1] at h; exact absurd h (by simp)

theorem get_rate_aux_break {fees : List ((ℕ × ℕ × ℕ) × ℚ)} {t : ℕ × ℕ × ℕ}
    (h : ∀ p ∈ fees, dateLE p.1 t = false) (acc : ℚ) :
    get_rate_for_date_aux fees t acc = acc := by
  cases fees with
  | nil => rfl
  | cons p rest =>
    rw [get_rate_for_date_aux]
    rw [if_neg (by simp [h p (List.mem_cons_self p rest)])]

theorem get_rate_aux_latest :
    ∀ {fees : List ((ℕ × ℕ × ℕ) × ℚ)},
      List.Pairwise (fun p q => dateLE q.1 p.1 = false) fees →
      ∀ {e : ℕ × ℕ × ℕ} {r : ℚ} {t : ℕ × ℕ × ℕ}, (e, r) ∈ fees →
      dateLE e t = true →
      (∀ p ∈ fees, dateLE p.1 t = true → dateLE p.1 e = true) →
      ∀ acc, get_rate_for_date_aux fees t acc = r := by
  intro fees
  induction fees with
  | nil => intro _ e r t hmem; simp at hmem
  | cons p0 rest ih =>
    intro hsorted e r t hmem het hlatest acc
    have hsorted_rest := (List.pairwise_cons.mp hsorted).2
    have hhead := (List.pairwise_cons.mp hsorted).1
    rw [get_rate_for_date_aux]
    rcases List.mem_cons.mp hmem with hm | hm
    · have hpe : p0.1 = e := by rw [← hm]
      rw [if_pos (by rw [hpe]; exact het)]
      have hnone : ∀ q ∈ rest, dateLE q.1 t = false := by
        intro q hq
        by_contra habs
        rw [Bool.not_eq_false] at habs
        have h1 : dateLE q.1 e = true :=
          hlatest q (List.mem_cons_of_mem p0 hq) habs
        have h2 : dateLE q.1 p0.1 = false := hhead q hq
        rw [hpe] at h2
        rw [h2] at h1
        exact absurd h1 (by simp)
      rw [get_rate_aux_break hnone]
      rw [← hm]
    · have hp0e : dateLE e p0.1 = false := hhead (e, r) hm
      have hp0t : dateLE p0.1 t = true :=
        dateLE_trans (dateLE_of_not_ge hp0e) het
      rw [if_pos hp0t]
      exact ih hsorted_rest hm het
        (fun q hq hqt => hlatest q (List.mem_cons_of_mem p0 hq) hqt) p0.2

/-- Claim C3: rate resolution is monotonic and ongoing.  For a sorted
timeline with dated entries at `d1 < d2 < d3` and a target `t` with
`d2 ≤ t < d3`, day-granular resolution returns `d2`'s rate; in general, on
a strictly sorted timeline the entry effective on or before the target and
superseded by no other applicable entry supplies the rate; and the v17
month-granular resolver agrees on three dated entries. -/
theorem claim_C3 :
    (∀ e1 e2 e3 : ℕ × ℕ × ℕ, ∀ r1 r2 r3 : ℚ, ∀ t : ℕ × ℕ × ℕ,
      dateLE e2 e1 = false → dateLE e3 e2 = false →
      dateLE e2 t = true → dateLE e3 t = false →
      get_rate_for_date [(e1, r1), (e2, r2), (e3, r3)] t = r2) ∧
    (∀ fees : List ((ℕ × ℕ × ℕ) × ℚ),
      List.Pairwise (fun p q => dateLE q.1 p.1 = false) fees →
      ∀ (e : ℕ × ℕ × ℕ) (r : ℚ) (t : ℕ × ℕ × ℕ), (e, r) ∈ fees →
      dateLE e t = true →
      (∀ p ∈ fees, dateLE p.1 t = true → dateLE p.1 e = true) →
      get_rate_for_date fees t = r) ∧
    (∀ e1 e2 e3 : ℕ × ℕ × ℕ, ∀ r1 r2 r3 : ℚ, ∀ tm ty : ℕ,
      e1.2.2 ≠ 0 → e2.2.2 ≠ 0 → e3.2.2 ≠ 0 →
      pyTupleLE2 (e2.2.2, e2.1) (e1.2.2, e1.1) = false →
      pyTupleLE2 (e3.2.2, e3.1) (e2.2.2, e2.1) = false →
      pyTupleLE2 (e2.2.2, e2.1) (ty, tm) = true →
      pyTupleLE2 (e3.2.2, e3.1) (ty, tm) = false →
      0 < r2 →
      get_applicable_admin_fee [(e1, r1), (e2, r2), (e3, r3)] tm ty = r2) := by
  refine ⟨?_, ?_, ?_⟩
  · intro e1 e2 e3 r1 r2 r3 t h21 h32 h2t h3t
    have h1t : dateLE e1 t = true := dateLE_trans (dateLE_of_not_ge h21) h2t
    unfold get_rate_for_date
    rw [get_rate_for_date_aux, if_pos h1t,
      get_rate_for_date_aux, if_pos h2t,
      get_rate_for_date_aux, if_neg (by simp [h3t])]
  · intro fees hsorted e r t hmem het hlatest
    exact get_rate_aux_latest hsorted hmem het hlatest 0
  · intro e1 e2 e3 r1 r2 r3 tm ty hy1 hy2 hy3 h21 h32 h2t h3t hr2
    have h1t : pyTupleLE2 (e1.2.2, e1.1) (ty, tm) = true :=
      pairLE_trans (pairLE_of_not_ge h21) h2t
    unfold get_applicable_admin_fee
    rw [get_applicable_admin_fee_aux, if_neg hy1, if_pos h1t,
      get_applicable_admin_fee_aux, if_neg hy2, if_pos h2t,
      get_applicable_admin_fee_aux, if_neg hy3, if_neg (by simp [h3t]),
      if_pos hr2]

/-- Witness for C3: a concrete three-entry timeline where a July 2025 date
resolves to the June 15 rate. -/
theorem claim_C3_witness :
    get_rate_for_date [((1, 1, 2025), (10 : ℚ)), ((6, 15, 2025), 20),
      ((9, 1, 2025), 30)] (7, 1, 2025) = 20 :=
  claim_C3.1 (1, 1, 2025) (6, 15, 2025) (9, 1, 2025) 10 20 30 (7, 1, 2025)
    (by decide) (by decide) (by decide) (by decide)

/-- Claim C4: a timeline led by the static sentinel entry with rate `R`
resolves to `R` at every month-granular target strictly earlier than every
dated entry's effective date — the static entry is the fallback whenever no
dated entry applies. -/
theorem claim_C4 (R : ℚ) (dated : List ((ℕ × ℕ × ℕ) × ℚ)) (tm ty : ℕ)
    (hyears : ∀ p ∈ dated, p.1.2.2 ≠ 0)
    (hlater : ∀ p ∈ dated, pyTupleLE2 (p.1.2.2, p.1.1) (ty, tm) = false) :
    get_applicable_admin_fee (((0, 0, 0), R) :: dated) tm ty = R := by
  unfold get_applicable_admin_fee
  rw [get_applicable_admin_fee_aux, if_pos rfl]
  cases dated with
  | nil =>
    rw [get_applicable_admin_fee_aux, if_neg (by norm_num)]
  | cons p rest =>
    rw [get_applicable_admin_fee_aux,
      if_neg (hyears p (List.mem_cons_self p rest)),
      if_neg (by simp [hlater p (List.mem_cons_self p rest)]),
      if_neg (by norm_num)]

/-- Witness for C4: a static rate of 25 with one dated entry effective July
2025 resolves to 25 for June 2025. -/
theorem claim_C4_witness :
    get_applicable_admin_fee [((0, 0, 0), (25 : ℚ)), ((7, 1, 2025), 30)] 6 2025 = 25 :=
  claim_C4 25 [((7, 1, 2025), 30)] 6 2025 (by decide) (by decide)

/-! ## Claim C2: the full-month override -/

theorem dateLE_refl (a : ℕ × ℕ × ℕ) : dateLE a a = true := by
  simp [dateLE, pyTupleLE3]

theorem has_mid_month_eff_iff (fees : List ((ℕ × ℕ × ℕ) × ℚ)) (M : ℕ) :
    has_mid_month_eff fees M = true ↔ ∃ p ∈ fees, p.1.1 = M ∧ 1 < p.1.2.1 := by
  induction fees with
  | nil => simp [has_mid_month_eff]
  | cons p rest ih =>
    rw [has_mid_month_eff]
    by_cases hp : p.1.1 = M ∧ 1 < p.1.2.1
    · simp only [if_pos hp]
      constructor
      · intro _; exact ⟨p, List.mem_cons_self p rest, hp⟩
      · intro _; trivial
    · simp only [if_neg hp, ih]
      constructor
      · rintro ⟨q, hq, hq2⟩; exact ⟨q, List.mem_cons_of_mem p hq, hq2⟩
      · rintro ⟨q, hq, hq2⟩
        rcases List.mem_cons.mp hq with h | h
        · exact absurd (h ▸ hq2) hp
        · exact ⟨q, h, hq2⟩

theorem get_full_month_eff_rate_aux_eq (fees : List ((ℕ × ℕ × ℕ) × ℚ)) (M : ℕ) :
    ∀ acc, get_full_month_eff_rate_aux fees M acc =
      match (fees.filter (fun q => decide (q.1.1 = M ∧ 1 < q.1.2.1))).getLast? with
      | some p => p.2
      | Option.none => acc := by
  induction fees with
  | nil => intro acc; rfl
  | cons p rest ih =>
    intro acc
    rw [get_full_month_eff_rate_aux, List.filter_cons]
    by_cases hp : p.1.1 = M ∧ 1 < p.1.2.1
    · rw [if_pos hp, if_pos (by simpa using hp), ih p.2]
      cases hl : (rest.filter (fun q => decide (q.1.1 = M ∧ 1 < q.1.2.1))).getLast? with
      | none =>
        have hnil : (rest.filter (fun q => decide (q.1.1 = M ∧ 1 < q.1.2.1))) = [] := by
          cases hfl : rest.filter (fun q => decide (q.1.1 = M ∧ 1 < q.1.2.1)) with
          | nil => rfl
          | cons a l =>
            rw [hfl] at hl
            exact absurd hl (Option.isSome_iff_ne_none.mp rfl)
        rw [hnil]
        rfl
      | some q =>
        have hcons : ((p :: rest.filter (fun q => decide (q.1.1 = M ∧ 1 < q.1.2.1)))).getLast? = some q := by
          cases hfl : rest.filter (fun q => decide (q.1.1 = M ∧ 1 < q.1.2.1)) with
          | nil => rw [hfl] at hl; simp at hl
          | cons a l =>
            rw [hfl] at hl
            rw [List.getLast?_cons_cons, hl]
        rw [hcons]
    · rw [if_neg hp, if_neg (by simpa using hp), ih acc]

theorem pairwise_getLast?_rel {R : α → α → Prop} :
    ∀ {l : List α}, List.Pairwise R l → ∀ {x y : α}, x ∈ l →
      l.getLast? = some y → x = y ∨ R x y := by
  intro l
  induction l with
  | nil => intro _ x y hx; simp at hx
  | cons a t ih =>
    intro hp x y hx hy
    cases t with
    | nil =>
      simp at hx hy
      left; rw [hx, hy]
    | cons b t2 =>
      rw [List.getLast?_cons_cons] at hy
      rcases List.mem_cons.mp hx with hxa | hxt
      · right
        have hymem : y ∈ b :: t2 := List.mem_of_mem_getLast? hy
        exact hxa ▸ (List.pairwise_cons.mp hp).1 y hymem
      · exact ih (List.pairwise_cons.mp hp).2 hxt hy

/-- Claim C2: for a full-month period (start day 1, end day at least 28,
same month) with a mid-month effective entry in the target month, the row
rate is the last such mid-month entry's rate — on a sorted timeline the
latest one; any period that is not a full-month span resolves from its
start date alone; and in the spec's scenario (static rate prepended as a
dated entry, mid-month entry on day 15) the full-month row takes the
mid-month rate while a week within days 1-7 keeps the earlier rate. -/
theorem claim_C2 :
    (∀ (fees : List ((ℕ × ℕ × ℕ) × ℚ)) (M : ℕ) (s e : ℕ × ℕ × ℕ),
      is_full_month_period s e = true →
      (∃ p ∈ fees, p.1.1 = M ∧ 1 < p.1.2.1) →
      ∃ p, (fees.filter (fun q => decide (q.1.1 = M ∧ 1 < q.1.2.1))).getLast? = some p ∧
        v18b_rate_for_row fees M s e = p.2) ∧
    (∀ (fees : List ((ℕ × ℕ × ℕ) × ℚ)) (M : ℕ) (s e : ℕ × ℕ × ℕ),
      is_full_month_period s e = false →
      v18b_rate_for_row fees M s e = get_rate_for_date fees s) ∧
    (∀ (fees : List ((ℕ × ℕ × ℕ) × ℚ)) (M : ℕ),
      List.Pairwise (fun p q => dateLE q.1 p.1 = false) fees →
      ∀ p, (fees.filter (fun q => decide (q.1.1 = M ∧ 1 < q.1.2.1))).getLast? = some p →
      ∀ q ∈ fees, q.1.1 = M ∧ 1 < q.1.2.1 → dateLE q.1 p.1 = true) ∧
    (∀ R0 R1 : ℚ,
      v18b_rate_for_row [((1, 1, 2025), R0), ((6, 15, 2025), R1)] 6
        (6, 1, 2025) (6, 30, 2025) = R1 ∧
      v18b_rate_for_row [((1, 1, 2025), R0), ((6, 15, 2025), R1)] 6
        (6, 1, 2025) (6, 7, 2025) = R0) := by
  refine ⟨?_, ?_, ?_, ?_⟩
  · intro fees M s e hfull hex
    have hmid : has_mid_month_eff fees M = true := (has_mid_month_eff_iff fees M).mpr hex
    obtain ⟨p0, hp0⟩ := hex
    have hne : (fees.filter (fun q => decide (q.1.1 = M ∧ 1 < q.1.2.1))) ≠ [] := by
      intro hnil
      have : p0 ∈ fees.filter (fun q => decide (q.1.1 = M ∧ 1 < q.1.2.1)) :=
        List.mem_filter.mpr ⟨hp0.1, by simpa using hp0.2⟩
      rw [hnil] at this
      simp at this
    obtain ⟨q, hq⟩ := Option.ne_none_iff_exists'.mp
      (fun hnone => hne (List.getLast?_eq_none_iff.mp hnone))
    refine ⟨q, hq, ?_⟩
    unfold v18b_rate_for_row
    rw [if_pos (by rw [hfull, hmid]; rfl)]
    rw [get_full_month_eff_rate, get_full_month_eff_rate_aux_eq, hq]
  · intro fees M s e hfull
    unfold v18b_rate_for_row
    rw [if_neg (by rw [hfull]; simp)]
  · intro fees M hsorted p hlast q hq hcond
    have hfilter_sorted :
        List.Pairwise (fun p q => dateLE q.1 p.1 = false)
          (fees.filter (fun r => decide (r.1.1 = M ∧ 1 < r.1.2.1))) :=
      List.Pairwise.sublist (List.filter_sublist fees) hsorted
    have hqmem : q ∈ fees.filter (fun r => decide (r.1.1 = M ∧ 1 < r.1.2.1)) :=
      List.mem_filter.mpr ⟨hq, by simpa using hcond⟩
    rcases pairwise_getLast?_rel hfilter_sorted hqmem hlast with h | h
    · rw [h]; exact dateLE_refl p.1
    · exact dateLE_of_not_ge h
  · intro R0 R1
    constructor <;> rfl

/-- Witness for C2: the full-month clause applied to the spec scenario
timeline with rates 50 and 75. -/
theorem claim_C2_witness :
    ∃ p, (([((1, 1, 2025), (50 : ℚ)), ((6, 15, 2025), 75)]).filter
        (fun q => decide (q.1.1 = 6 ∧ 1 < q.1.2.1))).getLast? = some p ∧
      v18b_rate_for_row [((1, 1, 2025), (50 : ℚ)), ((6, 15, 2025), 75)] 6
        (6, 1, 2025) (6, 30, 2025) = p.2 :=
  claim_C2.1 [((1, 1, 2025), (50 : ℚ)), ((6, 15, 2025), 75)] 6
    (6, 1, 2025) (6, 30, 2025) (by decide)
    ⟨((6, 15, 2025), 75), by simp, by decide, by decide⟩

/-! ## Claim C5: single-date parsing -/

theorem expectChar_cons (c : Char) (l : List Char) : expectChar c (c :: l) = some l := by
  simp [expectChar]

theorem slash_not_digit : ('/' : Char).isDigit = false := rfl

theorem match12Then_one_slash {c : Char} (hc : c.isDigit = true)
    {α : Type} {k : List Char → Option α} {rest : List Char} {a : α}
    (hk : k rest = some a) :
    match12Then (fun r => (expectChar '/' r).bind k) (c :: '/' :: rest) =
      some (digitVal c, a) := by
  rw [match12Then, if_pos hc]
  simp [slash_not_digit, expectChar, hk]

theorem match12Then_two_slash {c1 c2 : Char} (h1 : c1.isDigit = true)
    (h2 : c2.isDigit = true)
    {α : Type} {k : List Char → Option α} {rest : List Char} {a : α}
    (hk : k rest = some a) :
    match12Then (fun r => (expectChar '/' r).bind k) (c1 :: c2 :: '/' :: rest) =
      some (10 * digitVal c1 + digitVal c2, a) := by
  rw [match12Then, if_pos h1]
  simp [h2, expectChar, hk]

theorem month_part {m : ℕ} {mm : List Char} (hm99 : m ≤ 99)
    (hm : mm = monthStr m ∨ mm = month02Str m)
    {α : Type} {k : List Char → Option α} {rest : List Char} {a : α}
    (hk : k rest = some a) :
    match12Then (fun r => (expectChar '/' r).bind k) (mm ++ '/' :: rest) =
      some (m, a) := by
  have htwo : match12Then (fun r => (expectChar '/' r).bind k)
      (monthStr m ++ '/' :: rest) = some (m, a) := by
    unfold monthStr
    by_cases hlt : m < 10
    · rw [if_pos hlt]
      simp only [List.cons_append, List.nil_append]
      rw [match12Then_one_slash (digitChar_isDigit m) hk,
        digitVal_digitChar (by omega)]
    · rw [if_neg hlt]
      simp only [List.cons_append, List.nil_append]
      rw [match12Then_two_slash (digitChar_isDigit (m / 10))
        (digitChar_isDigit (m % 10)) hk,
        digitVal_digitChar (by omega), digitVal_digitChar (by omega)]
      congr 2
      omega
  rcases hm with hm | hm
  · rw [hm]; exact htwo
  · rw [hm]
    unfold month02Str
    by_cases hlt : m < 10
    · rw [if_pos hlt]
      simp only [List.cons_append, List.nil_append]
      rw [match12Then_two_slash (by rfl) (digitChar_isDigit m) hk,
        digitVal_digitChar (by omega)]
      congr 2
      have h0 : digitVal '0' = 0 := by decide
      omega
    · rw [if_neg hlt]; exact htwo

theorem take24Digits_two {a b : Char} (ha : a.isDigit = true) (hb : b.isDigit = true) :
    take24Digits [a, b] = some (10 * digitVal a + digitVal b, []) := by
  rw [take24Digits, if_pos ⟨ha, hb⟩]

theorem take24Digits_four {a b c d : Char} (ha : a.isDigit = true)
    (hb : b.isDigit = true) (hc : c.isDigit = true) (hd : d.isDigit = true) :
    take24Digits [a, b, c, d] =
      some (10 * (10 * (10 * digitVal a + digitVal b) + digitVal c) + digitVal d, []) := by
  rw [take24Digits, if_pos ⟨ha, hb⟩]
  simp [hc, hd]

theorem take12Digits_one {c sep : Char} {rest : List Char}
    (hc : c.isDigit = true) (hsep : sep.isDigit = false) :
    take12Digits (c :: sep :: rest) = some (digitVal c, sep :: rest) := by
  rw [take12Digits, if_pos hc]
  simp [hsep]

theorem take12Digits_two {c1 c2 : Char} {rest : List Char}
    (h1 : c1.isDigit = true) (h2 : c2.isDigit = true) :
    take12Digits (c1 :: c2 :: rest) = some (10 * digitVal c1 + digitVal c2, rest) := by
  rw [take12Digits, if_pos h1]
  simp [h2]

theorem take4Digits_cons_none {a b c d : Char} {rest : List Char}
    (h : ¬(a.isDigit = true ∧ b.isDigit = true ∧ c.isDigit = true ∧ d.isDigit = true)) :
    take4Digits (a :: b :: c :: d :: rest) = Option.none := by
  rw [take4Digits, if_neg h]

theorem take4Digits_four {a b c d : Char} {rest : List Char} (ha : a.isDigit = true)
    (hb : b.isDigit = true) (hc : c.isDigit = true) (hd : d.isDigit = true) :
    take4Digits (a :: b :: c :: d :: rest) =
      some (10 * (10 * (10 * digitVal a + digitVal b) + digitVal c) + digitVal d, rest) := by
  rw [take4Digits, if_pos ⟨ha, hb, hc, hd⟩]

theorem searchPos_skip {α : Type} {m : List Char → Option α} {c : Char}
    {l : List Char} (hfail : m (c :: l) = Option.none) :
    searchPos m (c :: l) = searchPos m l := by
  rw [searchPos, hfail]

theorem searchPos_hit {α : Type} {m : List Char → Option α} {c : Char}
    {l : List Char} {a : α} (hok : m (c :: l) = some a) :
    searchPos m (c :: l) = some a := by
  rw [searchPos, hok]

theorem take4_none_head_slash (l : List Char) : take4Digits ('/' :: l) = Option.none := by
  match l with
  | [] => rfl
  | [_] => rfl
  | [_, _] => rfl
  | _ :: _ :: _ :: _ => exact take4Digits_cons_none (fun h => absurd h.1 (by decide))

theorem take4_none_second_slash (c : Char) (l : List Char) :
    take4Digits (c :: '/' :: l) = Option.none := by
  match l with
  | [] => rfl
  | [_] => rfl
  | _ :: _ :: _ => exact take4Digits_cons_none (fun h => absurd h.2.1 (by decide))

theorem take4_none_third_slash (c1 c2 : Char) (l : List Char) :
    take4Digits (c1 :: c2 :: '/' :: l) = Option.none := by
  match l with
  | [] => rfl
  | _ :: _ => exact take4Digits_cons_none (fun h => absurd h.2.2.1 (by decide))

theorem searchPos_take4_skip_group {g : List Char} (hlen : g.length ≤ 2)
    (rest : List Char) :
    searchPos take4Digits (g ++ '/' :: rest) = searchPos take4Digits rest := by
  match g, hlen with
  | [], _ =>
    rw [List.nil_append, searchPos_skip (take4_none_head_slash rest)]
  | [c], _ =>
    simp only [List.cons_append, List.nil_append]
    rw [searchPos_skip (take4_none_second_slash c rest),
      searchPos_skip (take4_none_head_slash rest)]
  | [c1, c2], _ =>
    simp only [List.cons_append, List.nil_append]
    rw [searchPos_skip (take4_none_third_slash c1 c2 rest),
      searchPos_skip (take4_none_second_slash c2 rest),
      searchPos_skip (take4_none_head_slash rest)]

theorem take4_none_short {l : List Char} (h : l.length ≤ 3) :
    take4Digits l = Option.none := by
  match l, h with
  | [], _ => rfl
  | [_], _ => rfl
  | [_, _], _ => rfl
  | [_, _, _], _ => rfl

theorem searchPos_take4_short : ∀ (l : List Char), l.length ≤ 3 →
    searchPos take4Digits l = Option.none := by
  intro l
  induction l with
  | nil => intro _; rfl
  | cons a rest ih =>
    intro h
    rw [searchPos_skip (take4_none_short h)]
    exact ih (by simpa using Nat.le_of_succ_le h)

theorem monthStr_length (m : ℕ) : (monthStr m).length ≤ 2 := by
  unfold monthStr
  split <;> simp

theorem month02Str_length (m : ℕ) : (month02Str m).length ≤ 2 := by
  unfold month02Str
  split
  · simp
  · exact monthStr_length m

theorem take24Digits_month02 {y : ℕ} (hy : y ≤ 99) :
    take24Digits (month02Str y) = some (y, []) := by
  unfold month02Str monthStr
  by_cases hlt : y < 10
  · rw [if_pos hlt, take24Digits_two (by rfl) (digitChar_isDigit y),
      digitVal_digitChar (by omega)]
    congr 2
    have h0 : digitVal '0' = 0 := by decide
    omega
  · rw [if_neg hlt, if_neg hlt,
      take24Digits_two (digitChar_isDigit (y / 10)) (digitChar_isDigit (y % 10)),
      digitVal_digitChar (by omega), digitVal_digitChar (by omega)]
    congr 2
    omega

theorem take24Digits_year4 {y : ℕ} (hy1 : 1000 ≤ y) (hy2 : y ≤ 9999) :
    take24Digits [digitChar (y / 1000), digitChar (y / 100 % 10),
      digitChar (y / 10 % 10), digitChar (y % 10)] = some (y, []) := by
  rw [take24Digits_four (digitChar_isDigit _) (digitChar_isDigit _)
    (digitChar_isDigit _) (digitChar_isDigit _),
    digitVal_digitChar (by omega), digitVal_digitChar (by omega),
    digitVal_digitChar (by omega), digitVal_digitChar (by omega)]
  congr 2
  omega

theorem take4Digits_year4 {y : ℕ} (hy1 : 1000 ≤ y) (hy2 : y ≤ 9999) :
    take4Digits [digitChar (y / 1000), digitChar (y / 100 % 10),
      digitChar (y / 10 % 10), digitChar (y % 10)] = some (y, []) := by
  rw [take4Digits_four (digitChar_isDigit _) (digitChar_isDigit _)
    (digitChar_isDigit _) (digitChar_isDigit _),
    digitVal_digitChar (by omega), digitVal_digitChar (by omega),
    digitVal_digitChar (by omega), digitVal_digitChar (by omega)]
  congr 2
  omega

theorem matchSingleDateAt_eq {m d yv : ℕ} {mm dd ys : List Char}
    (hm99 : m ≤ 99) (hd99 : d ≤ 99)
    (hm : mm = monthStr m ∨ mm = month02Str m)
    (hd : dd = monthStr d ∨ dd = month02Str d)
    (hy : take24Digits ys = some (yv, [])) :
    matchSingleDateAt (mm ++ '/' :: (dd ++ '/' :: ys)) = some ((m, d, yv), []) := by
  unfold matchSingleDateAt
  rw [month_part hm99 hm (month_part hd99 hd hy)]

theorem day_part_take12 {d : ℕ} {dd : List Char} (hd99 : d ≤ 99)
    (hd : dd = monthStr d ∨ dd = month02Str d) (ys : List Char) :
    take12Digits (dd ++ '/' :: ys) = some (d, '/' :: ys) := by
  have htwo : take12Digits (monthStr d ++ '/' :: ys) = some (d, '/' :: ys) := by
    unfold monthStr
    by_cases hlt : d < 10
    · rw [if_pos hlt]
      simp only [List.cons_append, List.nil_append]
      rw [take12Digits_one (digitChar_isDigit d) slash_not_digit,
        digitVal_digitChar (by omega)]
    · rw [if_neg hlt]
      simp only [List.cons_append, List.nil_append]
      rw [take12Digits_two (digitChar_isDigit (d / 10)) (digitChar_isDigit (d % 10)),
        digitVal_digitChar (by omega), digitVal_digitChar (by omega)]
      congr 2
      omega
  rcases hd with hd | hd
  · rw [hd]; exact htwo
  · rw [hd]
    unfold month02Str
    by_cases hlt : d < 10
    · rw [if_pos hlt]
      simp only [List.cons_append, List.nil_append]
      rw [take12Digits_two (by rfl) (digitChar_isDigit d),
        digitVal_digitChar (by omega)]
      congr 2
      have h0 : digitVal '0' = 0 := by decide
      omega
    · rw [if_neg hlt]; exact htwo

theorem extract_date_from_period_eq {m d : ℕ} {mm dd ys : List Char}
    (hm99 : m ≤ 99) (hd99 : d ≤ 99)
    (hm : mm = monthStr m ∨ mm = month02Str m)
    (hd : dd = monthStr d ∨ dd = month02Str d) :
    extract_date_from_period (mm ++ '/' :: (dd ++ '/' :: ys)) =
      some (m, d,
        match searchPos take4Digits (mm ++ '/' :: (dd ++ '/' :: ys)) with
        | some v => v.1
        | Option.none => 0) := by
  unfold extract_date_from_period
  rw [month_part hm99 hm (day_part_take12 hd99 hd ys)]
  cases hsp : searchPos take4Digits (mm ++ '/' :: (dd ++ '/' :: ys)) <;> simp [hsp]

theorem searchPos_take4_in_date {mm dd ys : List Char}
    (hmlen : mm.length ≤ 2) (hdlen : dd.length ≤ 2) :
    searchPos take4Digits (mm ++ '/' :: (dd ++ '/' :: ys)) =
      searchPos take4Digits ys := by
  rw [searchPos_take4_skip_group hmlen, searchPos_take4_skip_group hdlen]

theorem mm_length {m : ℕ} {mm : List Char}
    (hm : mm = monthStr m ∨ mm = month02Str m) : mm.length ≤ 2 := by
  rcases hm with hm | hm <;> rw [hm]
  · exact monthStr_length m
  · exact month02Str_length m

/-- Counterexample for C5: the v17 period parser does not promote two-digit
years — `"06/01/25"` parses to `(6, 1, 0)`, not `(6, 1, 2025)` as the claim
requires of every cited parser. -/
theorem claim_C5_counterexample :
    extract_date_from_period ("06/01/25".toList) = some (6, 1, 0) ∧
    extract_date_from_period ("06/01/25".toList) ≠ some (6, 1, 2025) := by
  decide

/-- Claim C5 (amended): for every valid `MM/DD/YYYY` string both parsers
return exactly the written `(month, day, year)` triple, and for every valid
`MM/DD/YY` string v18b's `extract_single_date` promotes the two-digit year
by `+2000` while v17's `extract_date_from_period` — which only reads a year
from a four-digit group — returns year `0`. -/
theorem claim_C5 :
    (∀ (m d y : ℕ) (mm dd : List Char),
      1 ≤ m → m ≤ 12 → 1 ≤ d → d ≤ 31 → 1000 ≤ y → y ≤ 9999 →
      (mm = monthStr m ∨ mm = month02Str m) →
      (dd = monthStr d ∨ dd = month02Str d) →
      extract_single_date (mm ++ '/' :: (dd ++ '/' ::
          [digitChar (y / 1000), digitChar (y / 100 % 10),
           digitChar (y / 10 % 10), digitChar (y % 10)])) = some (m, d, y) ∧
      extract_date_from_period (mm ++ '/' :: (dd ++ '/' ::
          [digitChar (y / 1000), digitChar (y / 100 % 10),
           digitChar (y / 10 % 10), digitChar (y % 10)])) = some (m, d, y)) ∧
    (∀ (m d y : ℕ) (mm dd : List Char),
      1 ≤ m → m ≤ 12 → 1 ≤ d → d ≤ 31 → y ≤ 99 →
      (mm = monthStr m ∨ mm = month02Str m) →
      (dd = monthStr d ∨ dd = month02Str d) →
      extract_single_date (mm ++ '/' :: (dd ++ '/' :: month02Str y)) =
        some (m, d, y + 2000) ∧
      extract_date_from_period (mm ++ '/' :: (dd ++ '/' :: month02Str y)) =
        some (m, d, 0)) := by
  constructor
  · intro m d y mm dd _ hm12 _ hd31 hy1 hy2 hm hd
    constructor
    · unfold extract_single_date
      rw [matchSingleDateAt_eq (by omega) (by omega) hm hd
        (take24Digits_year4 hy1 hy2)]
      simp only []
      rw [if_neg (by omega)]
    · rw [extract_date_from_period_eq (by omega) (by omega) hm hd,
        searchPos_take4_in_date (mm_length hm) (mm_length hd)]
      cases hys : [digitChar (y / 1000), digitChar (y / 100 % 10),
          digitChar (y / 10 % 10), digitChar (y % 10)] with
      | nil => simp at hys
      | cons a rest =>
        rw [← hys, searchPos_hit (by rw [take4Digits_year4 hy1 hy2])]
  · intro m d y mm dd _ hm12 _ hd31 hy99 hm hd
    constructor
    · unfold extract_single_date
      rw [matchSingleDateAt_eq (by omega) (by omega) hm hd
        (take24Digits_month02 hy99)]
      simp only []
      rw [if_pos (by omega)]
    · rw [extract_date_from_period_eq (by omega) (by omega) hm hd,
        searchPos_take4_in_date (mm_length hm) (mm_length hd),
        searchPos_take4_short (month02Str y) (by
          have := month02Str_length y
          omega)]

/-- Witness for C5: `"06/01/25"` (written with zero-padded month and day)
parses to `(6, 1, 2025)` under v18b and `(6, 1, 0)` under v17. -/
theorem claim_C5_witness :
    extract_single_date (month02Str 6 ++ '/' :: (month02Str 1 ++ '/' :: month02Str 25)) =
      some (6, 1, 2025) ∧
    extract_date_from_period (month02Str 6 ++ '/' :: (month02Str 1 ++ '/' :: month02Str 25)) =
      some (6, 1, 0) :=
  claim_C5.2 6 1 25 (month02Str 6) (month02Str 1) (by decide) (by decide)
    (by decide) (by decide) (by decide) (Or.inr rfl) (Or.inr rfl)

/-! ## Claim C9: the range parse and the span ordering invariant -/

/-- Counterexample for C9: the range parser accepts `"12/31-01/01/2025"`
and returns a span whose start is after its end — it performs no ordering
validation. -/
theorem claim_C9_counterexample :
    extract_period_dates ("12/31-01/01/2025".toList) =
      some ((12, 31, 2025), (1, 1, 2025)) ∧
    dateLE (12, 31, 2025) (1, 1, 2025) = false := by
  decide

/-- Claim C9 (amended): every successful range parse returns the two
written `(month, day)` pairs sharing the single trailing year, and the span
satisfies `startDate ≤ endDate` exactly when the start `(month, day)` pair
is lexicographically at most the end pair — the parser itself does not
enforce the ordering invariant. -/
theorem claim_C9 (s : List Char) (a b y1 c d y2 : ℕ)
    (h : extract_period_dates s = some ((a, b, y1), (c, d, y2))) :
    y1 = y2 ∧
    (dateLE (a, b, y1) (c, d, y2) = true ↔ (a < c ∨ (a = c ∧ b ≤ d))) := by
  have hy : y1 = y2 := by
    unfold extract_period_dates at h
    cases hmp : matchPeriodAt s with
    | none => rw [hmp] at h; simp at h
    | some v =>
      rw [hmp] at h
      obtain ⟨⟨m1, d1⟩, ⟨m2, d2⟩, y, rest⟩ := v
      simp only [Option.some.injEq, Prod.mk.injEq] at h
      omega
  subst hy
  refine ⟨rfl, ?_⟩
  show pyTupleLE3 (y1, a, b) (y1, c, d) = true ↔ _
  simp only [pyTupleLE3, decide_eq_true_eq]
  constructor
  · intro h2
    rcases h2 with h2 | h2
    · omega
    · exact h2.2
  · intro h2
    exact Or.inr ⟨trivial, h2⟩

/-- Witness for C9: the spec's range example `"06/01-06/07/2025"` shares
its year across start and end, and its span ordering reduces to the
month-day comparison. -/
theorem claim_C9_witness :
    (2025 : ℕ) = 2025 ∧
    (dateLE (6, 1, 2025) (6, 7, 2025) = true ↔ (6 < 6 ∨ (6 = 6 ∧ 1 ≤ 7))) :=
  claim_C9 ("06/01-06/07/2025".toList) 6 1 2025 6 7 2025 (by decide)

/-! ## Claim C8: document-level failure handling -/

/-- Counterexample for C8: when the workbook cannot be opened, the v17
admin-fee aggregation returns the zero triple instead of propagating a
failure identifying the document. -/
theorem claim_C8_counterexample :
    AdminFee.calculate_admin_fee_for_paysheet
      (Except.error ("cannot open workbook".toList)) 6 2025 = (0, 0, 0) := rfl

/-- Claim C8 (amended): only `parse_paysheet` propagates a document-load
failure, re-raised as a message naming the offending document; both
admin-fee aggregations swallow every document-level failure and return the
zero triple. -/
theorem claim_C8 :
    (∀ (path : List Char) (month year : ℕ) (bcCols : Option (List ℕ))
       (bcScanRows : Option ℕ) (bcPaymentMin : ℚ) (e : List Char),
      Accrual.parse_paysheet path month year bcCols bcScanRows bcPaymentMin
        (Except.error e) =
        Except.error ("Failed parsing ".toList ++ path ++ ": ".toList ++ e)) ∧
    (∀ (e : List Char) (month year : ℕ),
      AdminFee.calculate_admin_fee_for_paysheet (Except.error e) month year =
        (0, 0, 0)) ∧
    (∀ (e : List Char) (month year : ℕ),
      AdminFeeV18b.calculate_admin_fee_for_paysheet (Except.error e) month year =
        (0, 0, 0)) :=
  ⟨fun _ _ _ _ _ _ _ => rfl, fun _ _ _ => rfl, fun _ _ _ => rfl⟩

/-! ## Claim C10: nonnegativity of the admin-fee aggregates -/

theorem foldl_inv {α σ : Type} (P : σ → Prop) (f : σ → α → σ)
    (hstep : ∀ s a, P s → P (f s a)) :
    ∀ (l : List α) (s : σ), P s → P (l.foldl f s) := by
  intro l
  induction l with
  | nil => intro s hs; exact hs
  | cons a rest ih => intro s hs; exact ih (f s a) (hstep s a hs)

theorem insertSorted_mem {le : α → α → Bool} {x a : α} :
    ∀ {l : List α}, x ∈ insertSorted le a l → x = a ∨ x ∈ l := by
  intro l
  induction l with
  | nil => intro h; simp [insertSorted] at h; exact Or.inl h
  | cons y ys ih =>
    intro h
    rw [insertSorted] at h
    by_cases hle : le y a
    · rw [if_pos hle] at h
      rcases List.mem_cons.mp h with h | h
      · exact Or.inr (h ▸ List.mem_cons_self y ys)
      · rcases ih h with h | h
        · exact Or.inl h
        · exact Or.inr (List.mem_cons_of_mem y h)
    · rw [if_neg hle] at h
      rcases List.mem_cons.mp h with h | h
      · exact Or.inl h
      · exact Or.inr h

theorem stableSort_mem {le : α → α → Bool} {x : α} {l : List α}
    (h : x ∈ stableSort le l) : x ∈ l := by
  unfold stableSort at h
  have haux : ∀ (l2 : List α) (acc : List α),
      x ∈ l2.foldl (fun acc x => insertSorted le x acc) acc →
      x ∈ acc ∨ x ∈ l2 := by
    intro l2
    induction l2 with
    | nil => intro acc h2; exact Or.inl h2
    | cons a rest ih =>
      intro acc h2
      rcases ih (insertSorted le a acc) h2 with h3 | h3
      · rcases insertSorted_mem h3 with h4 | h4
        · exact Or.inr (h4 ▸ List.mem_cons_self a rest)
        · exact Or.inl h4
      · exact Or.inr (List.mem_cons_of_mem a h3)
  rcases haux l [] h with h2 | h2
  · simp at h2
  · exact h2

theorem AdminFee.feesInCell_pos {sh : Sheet} {r c : ℕ} :
    ∀ p ∈ AdminFee.feesInCell sh r c, 0 < p.2 := by
  intro p hp
  simp only [AdminFee.feesInCell] at hp
  repeat' split at hp
  all_goals simp at hp
  all_goals rw [hp]
  all_goals assumption

theorem AdminFee.find_all_pos {sh : Sheet} {hr n : ℕ} :
    ∀ p ∈ AdminFee.find_all_admin_fees_around_header sh hr n, 0 < p.2 := by
  intro p hp
  unfold AdminFee.find_all_admin_fees_around_header at hp
  have hmem := stableSort_mem hp
  rcases List.mem_append.mp hmem with h | h <;>
  · unfold AdminFee.feesInRows at h
    rcases List.mem_flatMap.mp h with ⟨r, _, hr2⟩
    rcases List.mem_flatMap.mp hr2 with ⟨c, _, hc2⟩
    exact AdminFee.feesInCell_pos p hc2

theorem get_applicable_aux_nonneg {fees : List ((ℕ × ℕ × ℕ) × ℚ)}
    (hfees : ∀ p ∈ fees, 0 ≤ p.2) :
    ∀ {tm ty : ℕ} {appl static : ℚ}, 0 ≤ appl → 0 ≤ static →
      0 ≤ get_applicable_admin_fee_aux fees tm ty appl static := by
  induction fees with
  | nil =>
    intro tm ty appl static ha hs
    rw [get_applicable_admin_fee_aux]
    split <;> assumption
  | cons p rest ih =>
    intro tm ty appl static ha hs
    have hrest : ∀ q ∈ rest, 0 ≤ q.2 :=
      fun q hq => hfees q (List.mem_cons_of_mem p hq)
    have hp : 0 ≤ p.2 := hfees p (List.mem_cons_self p rest)
    rw [get_applicable_admin_fee_aux]
    split
    · exact ih hrest ha hp
    · split
      · exact ih hrest hp hs
      · split <;> assumption

theorem get_applicable_nonneg {fees : List ((ℕ × ℕ × ℕ) × ℚ)} {tm ty : ℕ}
    (hfees : ∀ p ∈ fees, 0 ≤ p.2) :
    0 ≤ get_applicable_admin_fee fees tm ty :=
  get_applicable_aux_nonneg hfees le_rfl le_rfl

theorem AdminFee.processRow_nonneg {sh : Sheet} {month year : ℕ} {rate : ℚ}
    {dateCol hoursCol : ℕ} (hrate : 0 ≤ rate) {st : ℚ × ℚ} (r : ℕ)
    (hst : 0 ≤ st.1 ∧ 0 ≤ st.2) :
    0 ≤ (AdminFee.processRow sh month year rate dateCol hoursCol st r).1 ∧
    0 ≤ (AdminFee.processRow sh month year rate dateCol hoursCol st r).2 := by
  simp only [AdminFee.processRow]
  repeat' split
  all_goals try exact hst
  rename_i hpos
  exact ⟨add_nonneg hst.1 (le_of_lt hpos),
    add_nonneg hst.2 (mul_nonneg (le_of_lt hpos) hrate)⟩

theorem AdminFee.processRow_skip_or_pos {sh : Sheet} {month year : ℕ} {rate : ℚ}
    {dateCol hoursCol : ℕ} {st : ℚ × ℚ} (r : ℕ) :
    AdminFee.processRow sh month year rate dateCol hoursCol st r = st ∨
    0 < safe_float (sh.cell r hoursCol) := by
  simp only [AdminFee.processRow]
  repeat' split
  all_goals try exact Or.inl rfl
  rename_i hpos
  exact Or.inr hpos

theorem AdminFee.processSection_inv_v17 {sh : Sheet} {month year : ℕ}
    {headers : List (ℕ × ℕ × List Char)} {st : ℚ × ℚ × ℚ}
    (ih : ℕ × (ℕ × ℕ × List Char))
    (hst : 0 ≤ st.1 ∧ 0 ≤ st.2.1 ∧ 0 ≤ st.2.2 ∧
      (st.1 = 0 → st.2.1 = 0 ∧ st.2.2 = 0)) :
    0 ≤ (AdminFee.processSection sh month year headers st ih).1 ∧
    0 ≤ (AdminFee.processSection sh month year headers st ih).2.1 ∧
    0 ≤ (AdminFee.processSection sh month year headers st ih).2.2 ∧
    ((AdminFee.processSection sh month year headers st ih).1 = 0 →
      (AdminFee.processSection sh month year headers st ih).2.1 = 0 ∧
      (AdminFee.processSection sh month year headers st ih).2.2 = 0) := by
  simp only [AdminFee.processSection]
  split
  · exact hst
  split
  · exact hst
  have hrate : 0 ≤ get_applicable_admin_fee
      (AdminFee.find_all_admin_fees_around_header sh ih.2.1 10) month year :=
    get_applicable_nonneg (fun p hp => le_of_lt (AdminFee.find_all_pos p hp))
  have hproj := foldl_inv (fun s : ℚ × ℚ => 0 ≤ s.1 ∧ 0 ≤ s.2)
    (AdminFee.processRow sh month year
      (get_applicable_admin_fee
        (AdminFee.find_all_admin_fees_around_header sh ih.2.1 10) month year)
      ih.2.2.1 (ih.2.2.1 + 1))
    (fun s a hs => AdminFee.processRow_nonneg hrate a hs)
    (List.range' (ih.2.1 + 1) ((match headers.get? (ih.1 + 1) with
      | some h => h.1
      | Option.none => sh.nrows) - (ih.2.1 + 1)))
    (0, 0) ⟨le_rfl, le_rfl⟩
  split
  · rename_i hpos
    refine ⟨?_, hrate, ?_, ?_⟩
    · exact add_nonneg hst.1 hproj.1
    · exact add_nonneg hst.2.2.1 hproj.2
    · intro habs
      exact absurd habs (ne_of_gt (add_pos_of_nonneg_of_pos hst.1 hpos))
  · exact hst

theorem AdminFee.calcFromBook_inv_v17 (book : Book) (month year : ℕ) :
    0 ≤ (AdminFee.calcFromBook book month year).1 ∧
    0 ≤ (AdminFee.calcFromBook book month year).2.1 ∧
    0 ≤ (AdminFee.calcFromBook book month year).2.2 ∧
    ((AdminFee.calcFromBook book month year).1 = 0 →
      (AdminFee.calcFromBook book month year).2.1 = 0 ∧
      (AdminFee.calcFromBook book month year).2.2 = 0) := by
  simp only [AdminFee.calcFromBook]
  split
  · exact ⟨le_rfl, le_rfl, le_rfl, fun _ => ⟨rfl, rfl⟩⟩
  split
  · exact ⟨le_rfl, le_rfl, le_rfl, fun _ => ⟨rfl, rfl⟩⟩
  exact foldl_inv
    (fun t : ℚ × ℚ × ℚ => 0 ≤ t.1 ∧ 0 ≤ t.2.1 ∧ 0 ≤ t.2.2 ∧
      (t.1 = 0 → t.2.1 = 0 ∧ t.2.2 = 0))
    _ (fun s a hs => AdminFee.processSection_inv_v17 a hs) _ (0, 0, 0)
    ⟨le_rfl, le_rfl, le_rfl, fun _ => ⟨rfl, rfl⟩⟩

theorem AdminFee.calculate_inv_v17 (load : Except (List Char) Book) (month year : ℕ) :
    0 ≤ (AdminFee.calculate_admin_fee_for_paysheet load month year).1 ∧
    0 ≤ (AdminFee.calculate_admin_fee_for_paysheet load month year).2.1 ∧
    0 ≤ (AdminFee.calculate_admin_fee_for_paysheet load month year).2.2 ∧
    ((AdminFee.calculate_admin_fee_for_paysheet load month year).1 = 0 →
      (AdminFee.calculate_admin_fee_for_paysheet load month year).2.1 = 0 ∧
      (AdminFee.calculate_admin_fee_for_paysheet load month year).2.2 = 0) := by
  cases load with
  | error e => exact ⟨le_rfl, le_rfl, le_rfl, fun _ => ⟨rfl, rfl⟩⟩
  | ok book => exact AdminFee.calcFromBook_inv_v17 book month year

theorem AdminFeeV18b.feeInCell_pos {sh : Sheet} {r c : ℕ} :
    ∀ p ∈ AdminFeeV18b.feeInCell sh r c, 0 < p.2 := by
  intro p hp
  simp only [AdminFeeV18b.feeInCell] at hp
  repeat' split at hp
  all_goals simp at hp
  all_goals rw [hp]
  all_goals assumption

theorem AdminFeeV18b.find_fees_pos {sh : Sheet} {hr n : ℕ} :
    ∀ p ∈ AdminFeeV18b.find_admin_fee_eff sh hr n, 0 < p.2 := by
  intro p hp
  unfold AdminFeeV18b.find_admin_fee_eff at hp
  have hmem := stableSort_mem hp
  rcases List.mem_flatMap.mp hmem with ⟨r, _, hr2⟩
  rcases List.mem_flatMap.mp hr2 with ⟨c, _, hc2⟩
  exact AdminFeeV18b.feeInCell_pos p hc2

theorem AdminFeeV18b.staticInCell_pos {sh : Sheet} {r c : ℕ} {q : ℚ}
    (h : AdminFeeV18b.staticInCell sh r c = some q) : 0 < q := by
  simp only [AdminFeeV18b.staticInCell] at h
  repeat' split at h
  all_goals simp at h
  all_goals rw [← h]
  all_goals assumption

theorem AdminFeeV18b.find_static_nonneg (sh : Sheet) (hr n : ℕ) :
    0 ≤ AdminFeeV18b.find_static_admin_fee sh hr n := by
  unfold AdminFeeV18b.find_static_admin_fee
  split
  · rename_i rate hfs
    rcases List.exists_of_findSome?_eq_some hfs with ⟨r, _, hr2⟩
    rcases List.exists_of_findSome?_eq_some hr2 with ⟨c, _, hc2⟩
    exact le_of_lt (AdminFeeV18b.staticInCell_pos hc2)
  · exact le_rfl

theorem get_rate_aux_nonneg {fees : List ((ℕ × ℕ × ℕ) × ℚ)}
    (hfees : ∀ p ∈ fees, 0 ≤ p.2) :
    ∀ {t : ℕ × ℕ × ℕ} {acc : ℚ}, 0 ≤ acc → 0 ≤ get_rate_for_date_aux fees t acc := by
  induction fees with
  | nil => intro t acc ha; exact ha
  | cons p rest ih =>
    intro t acc ha
    rw [get_rate_for_date_aux]
    split
    · exact ih (fun q hq => hfees q (List.mem_cons_of_mem p hq))
        (hfees p (List.mem_cons_self p rest))
    · exact ha

theorem get_rate_nonneg {fees : List ((ℕ × ℕ × ℕ) × ℚ)} {t : ℕ × ℕ × ℕ}
    (hfees : ∀ p ∈ fees, 0 ≤ p.2) : 0 ≤ get_rate_for_date fees t :=
  get_rate_aux_nonneg hfees le_rfl

theorem AdminFeeV18b.processRowFees_inv {sh : Sheet} {month year hpCol : ℕ}
    {fees : List ((ℕ × ℕ × ℕ) × ℚ)} {hasMid : Bool} {fullRate : ℚ}
    {st : ℚ × ℚ × ℚ} (r : ℕ)
    (hst : 0 ≤ st.1 ∧ 0 ≤ st.2.1 ∧ 0 ≤ st.2.2) :
    0 ≤ (AdminFeeV18b.processRowFees sh month year hpCol fees hasMid fullRate st r).1 ∧
    0 ≤ (AdminFeeV18b.processRowFees sh month year hpCol fees hasMid fullRate st r).2.1 ∧
    0 ≤ (AdminFeeV18b.processRowFees sh month year hpCol fees hasMid fullRate st r).2.2 := by
  simp only [AdminFeeV18b.processRowFees]
  repeat' split
  all_goals try exact hst
  all_goals refine ⟨?_, ?_, ?_⟩ <;> dsimp only <;>
    nlinarith [hst.1, hst.2.1, hst.2.2]

theorem AdminFeeV18b.processRowFees_skip_or_pos {sh : Sheet}
    {month year hpCol : ℕ} {fees : List ((ℕ × ℕ × ℕ) × ℚ)} {hasMid : Bool}
    {fullRate : ℚ} {st : ℚ × ℚ × ℚ} (r : ℕ) :
    AdminFeeV18b.processRowFees sh month year hpCol fees hasMid fullRate st r = st ∨
    0 < safe_float (sh.cell r (hpCol + 1)) := by
  simp only [AdminFeeV18b.processRowFees]
  repeat' split
  all_goals first
    | exact Or.inl rfl
    | exact Or.inr (not_le.mp (by assumption))

theorem AdminFeeV18b.processRowStatic_nonneg {sh : Sheet}
    {month year hpCol : ℕ} {sH : ℚ} (r : ℕ) (hs : 0 ≤ sH) :
    0 ≤ AdminFeeV18b.processRowStatic sh month year hpCol sH r := by
  simp only [AdminFeeV18b.processRowStatic]
  repeat' split
  all_goals try exact hs
  rename_i hpos
  exact add_nonneg hs (le_of_lt hpos)

theorem AdminFeeV18b.sectionFees_pos {sh : Sheet} {hpRow : ℕ} :
    ∀ p ∈ AdminFeeV18b.sectionFees sh hpRow, 0 < p.2 := by
  intro p hp
  simp only [AdminFeeV18b.sectionFees] at hp
  split at hp
  · rename_i hcond
    rcases List.mem_cons.mp hp with h | h
    · rw [h]
      exact hcond.2
    · exact AdminFeeV18b.find_fees_pos p h
  · exact AdminFeeV18b.find_fees_pos p hp

theorem AdminFeeV18b.sectionLoop_inv (sh : Sheet) (month year hpCol : ℕ)
    (fees : List ((ℕ × ℕ × ℕ) × ℚ)) (lo hi : ℕ) :
    0 ≤ (AdminFeeV18b.sectionLoop sh month year hpCol fees lo hi).1 ∧
    0 ≤ (AdminFeeV18b.sectionLoop sh month year hpCol fees lo hi).2.1 ∧
    0 ≤ (AdminFeeV18b.sectionLoop sh month year hpCol fees lo hi).2.2 :=
  foldl_inv (fun s : ℚ × ℚ × ℚ => 0 ≤ s.1 ∧ 0 ≤ s.2.1 ∧ 0 ≤ s.2.2) _
    (fun s a hs => AdminFeeV18b.processRowFees_inv a hs) _ (0, 0, 0)
    ⟨le_rfl, le_rfl, le_rfl⟩

theorem AdminFeeV18b.staticLoop_nonneg (sh : Sheet) (month year hpCol : ℕ)
    (lo hi : ℕ) : 0 ≤ AdminFeeV18b.staticLoop sh month year hpCol lo hi :=
  foldl_inv (fun s : ℚ => 0 ≤ s) _
    (fun s a hs => AdminFeeV18b.processRowStatic_nonneg a hs) _ 0 le_rfl

theorem AdminFeeV18b.processSection_inv_v18b {sh : Sheet} {month year : ℕ}
    {headers : List (ℕ × ℕ × List Char)} {st : ℚ × ℚ × ℚ}
    (ih : ℕ × (ℕ × ℕ × List Char))
    (hst : 0 ≤ st.1 ∧ 0 ≤ st.2.1 ∧ 0 ≤ st.2.2 ∧
      (st.1 = 0 → st.2.1 = 0 ∧ st.2.2 = 0)) :
    0 ≤ (AdminFeeV18b.processSection sh month year headers st ih).1 ∧
    0 ≤ (AdminFeeV18b.processSection sh month year headers st ih).2.1 ∧
    0 ≤ (AdminFeeV18b.processSection sh month year headers st ih).2.2 ∧
    ((AdminFeeV18b.processSection sh month year headers st ih).1 = 0 →
      (AdminFeeV18b.processSection sh month year headers st ih).2.1 = 0 ∧
      (AdminFeeV18b.processSection sh month year headers st ih).2.2 = 0) := by
  simp only [AdminFeeV18b.processSection]
  split
  · have hsec := AdminFeeV18b.sectionLoop_inv sh month year ih.2.2.1
      (AdminFeeV18b.sectionFees sh ih.2.1) (ih.2.1 + 1)
      (AdminFeeV18b.sectionEnd sh ih.2.1 ih.2.2.1
        (decide (ih.1 < headers.length - 1))
        (match headers.get? (ih.1 + 1) with
          | some h => h.1
          | Option.none => 0))
    split
    · rename_i hpos
      refine ⟨add_nonneg hst.1 hsec.1, hsec.2.2, add_nonneg hst.2.2.1 hsec.2.1, ?_⟩
      intro habs
      exact absurd habs (ne_of_gt (add_pos_of_nonneg_of_pos hst.1 hpos))
    · exact hst
  · split
    · rename_i hstatic
      have hsH := AdminFeeV18b.staticLoop_nonneg sh month year ih.2.2.1 (ih.2.1 + 1)
        (AdminFeeV18b.sectionEnd sh ih.2.1 ih.2.2.1
          (decide (ih.1 < headers.length - 1))
          (match headers.get? (ih.1 + 1) with
            | some h => h.1
            | Option.none => 0))
      split
      · rename_i hpos
        refine ⟨add_nonneg hst.1 hsH, le_of_lt hstatic,
          add_nonneg hst.2.2.1 (mul_nonneg hsH (le_of_lt hstatic)), ?_⟩
        intro habs
        exact absurd habs (ne_of_gt (add_pos_of_nonneg_of_pos hst.1 hpos))
      · exact hst
    · exact hst

theorem AdminFeeV18b.calcFromBook_inv_v18b (book : Book) (month year : ℕ) :
    0 ≤ (AdminFeeV18b.calcFromBook book month year).1 ∧
    0 ≤ (AdminFeeV18b.calcFromBook book month year).2.1 ∧
    0 ≤ (AdminFeeV18b.calcFromBook book month year).2.2 ∧
    ((AdminFeeV18b.calcFromBook book month year).1 = 0 →
      (AdminFeeV18b.calcFromBook book month year).2.1 = 0 ∧
      (AdminFeeV18b.calcFromBook book month year).2.2 = 0) := by
  simp only [AdminFeeV18b.calcFromBook]
  split
  · exact ⟨le_rfl, le_rfl, le_rfl, fun _ => ⟨rfl, rfl⟩⟩
  split
  · exact ⟨le_rfl, le_rfl, le_rfl, fun _ => ⟨rfl, rfl⟩⟩
  exact foldl_inv
    (fun t : ℚ × ℚ × ℚ => 0 ≤ t.1 ∧ 0 ≤ t.2.1 ∧ 0 ≤ t.2.2 ∧
      (t.1 = 0 → t.2.1 = 0 ∧ t.2.2 = 0))
    _ (fun s a hs => AdminFeeV18b.processSection_inv_v18b a hs) _ (0, 0, 0)
    ⟨le_rfl, le_rfl, le_rfl, fun _ => ⟨rfl, rfl⟩⟩

theorem AdminFeeV18b.calculate_inv_v18b (load : Except (List Char) Book)
    (month year : ℕ) :
    0 ≤ (AdminFeeV18b.calculate_admin_fee_for_paysheet load month year).1 ∧
    0 ≤ (AdminFeeV18b.calculate_admin_fee_for_paysheet load month year).2.1 ∧
    0 ≤ (AdminFeeV18b.calculate_admin_fee_for_paysheet load month year).2.2 ∧
    ((AdminFeeV18b.calculate_admin_fee_for_paysheet load month year).1 = 0 →
      (AdminFeeV18b.calculate_admin_fee_for_paysheet load month year).2.1 = 0 ∧
      (AdminFeeV18b.calculate_admin_fee_for_paysheet load month year).2.2 = 0) := by
  cases load with
  | error e => exact ⟨le_rfl, le_rfl, le_rfl, fun _ => ⟨rfl, rfl⟩⟩
  | ok book => exact AdminFeeV18b.calcFromBook_inv_v18b book month year

/-- Claim C10: the admin-fee aggregation of both module generations always
returns a triple `(totalHours, rateUsed, totalFee)` with all components
nonnegative, returning exactly the zero triple whenever no section
contributed (zero total hours); per row, the accumulators change only when
the coerced value next to the period cell is strictly positive. -/
theorem claim_C10 :
    (∀ (load : Except (List Char) Book) (month year : ℕ),
      0 ≤ (AdminFee.calculate_admin_fee_for_paysheet load month year).1 ∧
      0 ≤ (AdminFee.calculate_admin_fee_for_paysheet load month year).2.1 ∧
      0 ≤ (AdminFee.calculate_admin_fee_for_paysheet load month year).2.2 ∧
      ((AdminFee.calculate_admin_fee_for_paysheet load month year).1 = 0 →
        (AdminFee.calculate_admin_fee_for_paysheet load month year).2.1 = 0 ∧
        (AdminFee.calculate_admin_fee_for_paysheet load month year).2.2 = 0)) ∧
    (∀ (load : Except (List Char) Book) (month year : ℕ),
      0 ≤ (AdminFeeV18b.calculate_admin_fee_for_paysheet load month year).1 ∧
      0 ≤ (AdminFeeV18b.calculate_admin_fee_for_paysheet load month year).2.1 ∧
      0 ≤ (AdminFeeV18b.calculate_admin_fee_for_paysheet load month year).2.2 ∧
      ((AdminFeeV18b.calculate_admin_fee_for_paysheet load month year).1 = 0 →
        (AdminFeeV18b.calculate_admin_fee_for_paysheet load month year).2.1 = 0 ∧
        (AdminFeeV18b.calculate_admin_fee_for_paysheet load month year).2.2 = 0)) ∧
    (∀ (sh : Sheet) (month year : ℕ) (rate : ℚ) (dateCol hoursCol : ℕ)
       (st : ℚ × ℚ) (r : ℕ),
      AdminFee.processRow sh month year rate dateCol hoursCol st r = st ∨
      0 < safe_float (sh.cell r hoursCol)) ∧
    (∀ (sh : Sheet) (month year hpCol : ℕ) (fees : List ((ℕ × ℕ × ℕ) × ℚ))
       (hasMid : Bool) (fullRate : ℚ) (st : ℚ × ℚ × ℚ) (r : ℕ),
      AdminFeeV18b.processRowFees sh month year hpCol fees hasMid fullRate st r = st ∨
      0 < safe_float (sh.cell r (hpCol + 1))) :=
  ⟨AdminFee.calculate_inv_v17, AdminFeeV18b.calculate_inv_v18b,
    fun _ _ _ _ _ _ _ r => AdminFee.processRow_skip_or_pos r,
    fun _ _ _ _ _ _ _ _ r => AdminFeeV18b.processRowFees_skip_or_pos r⟩

/-- Witness for C10: the invariant instantiated at a concrete failing load,
where the aggregation returns the zero triple. -/
theorem claim_C10_witness :
    0 ≤ (AdminFee.calculate_admin_fee_for_paysheet
        (Except.error ("io".toList)) 6 2025).1 ∧
    0 ≤ (AdminFee.calculate_admin_fee_for_paysheet
        (Except.error ("io".toList)) 6 2025).2.1 ∧
    0 ≤ (AdminFee.calculate_admin_fee_for_paysheet
        (Except.error ("io".toList)) 6 2025).2.2 ∧
    ((AdminFee.calculate_admin_fee_for_paysheet
        (Except.error ("io".toList)) 6 2025).1 = 0 →
      (AdminFee.calculate_admin_fee_for_paysheet
        (Except.error ("io".toList)) 6 2025).2.1 = 0 ∧
      (AdminFee.calculate_admin_fee_for_paysheet
        (Except.error ("io".toList)) 6 2025).2.2 = 0) :=
  claim_C10.1 (Except.error ("io".toList)) 6 2025
